import Mathlib

/-!
# logsviewer backend: archive extraction and pod enrichment

A shallow embedding of `pkg/backend/logsHandler.go`.

* Go strings are lists of characters (`Str`): names and documents are valid
  UTF-8 text, and the functions used look for ASCII bytes only. The
  standard-library functions the handler calls (`strings`, `strconv`, `fmt`,
  `path/filepath`, `os`, `encoding/json`) are modelled after their documented
  behaviour on a Unix system with a 64-bit `int`.
* The file system is a pair of finite maps (regular files and directories) keyed
  by path.
* `log.Log.Fatalln` / `Fatalf` end the process; a call therefore returns `nil`,
  returns an error, is cut short by the end of the process, or panics.
* The enrichment data file is read and written through `encoding/json`: a file
  holding `null` sets `lookupData` to the nil map, and `ioutil.WriteFile` may
  fail, its error being dropped by the code.
-/

namespace LogsViewer

/-- Go `string`, as a list of characters. -/
abbrev Str := List Char

/-! ## `strings` -/

namespace strings

/-- Go `strings.HasPrefix(s, p)`. -/
def HasPrefix (s p : Str) : Bool := p.isPrefixOf s

/-- Go `strings.HasSuffix(s, p)`. -/
def HasSuffix (s p : Str) : Bool := p.reverse.isPrefixOf s.reverse

/-- Go `strings.Contains(s, substr)`: `substr` occurs somewhere in `s`. -/
def Contains : Str → Str → Bool
  | [], substr => substr.isEmpty
  | c :: cs, substr => HasPrefix (c :: cs) substr || Contains cs substr

/-- Go `strings.Split(s, sep)` for a one-character separator: the pieces of `s`
between successive separators (always at least one piece). -/
def Split : Str → Char → List Str
  | [], _ => [[]]
  | c :: cs, sep =>
    if c = sep then [] :: Split cs sep
    else
      match Split cs sep with
      | [] => [[c]]
      | piece :: pieces => (c :: piece) :: pieces

/-- Go `strings.Join(elems, sep)`. -/
def Join : List Str → Str → Str
  | [], _ => []
  | [e], _ => e
  | e :: e2 :: es, sep => e ++ sep ++ Join (e2 :: es) sep

/-- Go `strings.TrimPrefix(s, p)`. -/
def TrimPrefix (s p : Str) : Str :=
  if HasPrefix s p then s.drop p.length else s

/-- Go `strings.TrimSuffix(s, p)`. -/
def TrimSuffix (s p : Str) : Str :=
  if HasSuffix s p then s.take (s.length - p.length) else s

end strings

/-! ## `strconv` and `fmt` on a 64-bit `int` -/

/-- Width of the Go `int` type. -/
def intSize : Nat := 64

/-- Largest `int`. -/
def maxInt : Int := 2 ^ (intSize - 1) - 1

/-- Smallest `int`. -/
def minInt : Int := -(2 ^ (intSize - 1))

/-- Two's-complement wrap-around of an integer into the range of `int`. -/
def wrapInt (x : Int) : Int :=
  (x + 2 ^ (intSize - 1)) % 2 ^ intSize - 2 ^ (intSize - 1)

namespace strconv

/-- An ASCII decimal digit: a byte from `'0'` (48) to `'9'` (57). -/
def isDigit (c : Char) : Bool := 48 ≤ c.toNat && c.toNat ≤ 57

/-- Value of a run of decimal digits (most significant first), continuing from
`acc`: the loop `n = n*10 + int(ch - '0')`. -/
def digitsVal (acc : Nat) : Str → Nat
  | [] => acc
  | c :: cs => digitsVal (acc * 10 + (c.toNat - 48)) cs

/-- Go `strconv.Atoi(s)`: an optional sign followed by one or more decimal digits
whose value fits `int`; `none` stands for a non-nil error (syntax or range). -/
def Atoi (s : Str) : Option Int :=
  match s with
  | [] => none
  | c :: rest =>
    let neg := c = '-'
    let body := if c = '-' ∨ c = '+' then rest else s
    if body = [] then none
    else if !body.all isDigit then none
    else
      let un : Nat := digitsVal 0 body
      if neg then
        if un > 2 ^ (intSize - 1) then none else some (-(un : Int))
      else
        if un ≥ 2 ^ (intSize - 1) then none else some (un : Int)

end strconv

namespace fmt

/-- The verb `%d` applied to an `int`: canonical decimal, `-` for negatives. -/
def d (n : Int) : Str :=
  if n < 0 then '-' :: Nat.toDigits 10 n.natAbs else Nat.toDigits 10 n.toNat

end fmt

/-! ## `path/filepath` -/

namespace filepath

/-- The scan of `filepath.Ext`, from the last byte backwards: `rev` is what is
left to scan (reversed), `suffix` what has been passed over. -/
def extScan : Str → Str → Str
  | [], _ => []
  | c :: rev, suffix =>
    if c = '/' then []
    else if c = '.' then c :: suffix
    else extScan rev (c :: suffix)

/-- Go `filepath.Ext(path)`: the suffix beginning at the final dot in the final
element of `path`; empty if there is no dot. -/
def Ext (path : Str) : Str := extScan path.reverse []

/-- One element of the path handed to `Clean`, applied to the elements kept so
far (`kept`, innermost first). -/
def cleanStep (rooted : Bool) (kept : List Str) (elem : Str) : List Str :=
  if elem = [] ∨ elem = ['.'] then kept
  else if elem = ['.', '.'] then
    match kept with
    | [] => if rooted then [] else [elem]
    | top :: below =>
      if top = ['.', '.'] then (if rooted then kept else elem :: kept) else below
  else elem :: kept

/-- The elements `Clean` keeps, outermost first. -/
def cleanElems (path : Str) : List Str :=
  ((strings.Split path '/').foldl (cleanStep (path.head? = some '/')) []).reverse

/-- Whether a path is rooted (starts with a separator). -/
def isRooted (path : Str) : Bool := path.head? = some '/'

/-- A cleaned path written out from its elements. -/
def render (rooted : Bool) (elems : List Str) : Str :=
  if rooted then '/' :: strings.Join elems ['/']
  else if elems = [] then ['.'] else strings.Join elems ['/']

/-- Go `filepath.Clean(path)`: drop empty and `.` elements, resolve inner `..`
against the preceding element, drop `..` at the root; `.` for an empty result. -/
def Clean (path : Str) : Str := render (isRooted path) (cleanElems path)

/-- Go `filepath.Join(a, b)`: the arguments from the first non-empty one on, joined
by `/` and cleaned; empty if both are empty. -/
def Join (a b : Str) : Str :=
  if a ≠ [] then Clean (a ++ '/' :: b)
  else if b ≠ [] then Clean b
  else []

end filepath

/-! ## The collision rename of `unTarGz` -/

/-- The renaming block of `unTarGz` (the body of `if _, err := os.Stat(newTarget);
err == nil`): the name a regular file is written to when `newTarget` exists. -/
def versionedTarget (newTarget : Str) : Str :=
  let ext := filepath.Ext newTarget
  let filenameBase := strings.TrimSuffix newTarget ext
  let sp := strings.Split filenameBase '_'
  let suffixIndexStr := sp.getLast?.getD []
  let filenameBase :=
    match strconv.Atoi suffixIndexStr with
    | none => filenameBase ++ ['_', '1']
    | some suffixIndex =>
      let fileN := strings.TrimSuffix filenameBase ('_' :: fmt.d suffixIndex)
      let suffixIndex := wrapInt (suffixIndex + 1)
      fileN ++ '_' :: fmt.d suffixIndex
  filenameBase ++ ext

/-! ## The file system (`os`) -/

/-- The part of the file system the extractor touches: regular files with their
contents, and directories, keyed by path. -/
structure FS where
  /-- Contents of the regular file at a path, if there is one. -/
  files : Str → Option Str
  /-- Whether a directory exists at a path. -/
  dirs : Str → Bool

namespace os

/-- Go `os.Stat(path)` returns a nil error: something exists at `path`. -/
def Stat (fs : FS) (path : Str) : Bool := (fs.files path).isSome || fs.dirs path

/-- The directory `path` and all its ancestors, outermost first. -/
def dirChain (path : Str) : List Str :=
  (filepath.cleanElems path).inits.map (filepath.render (filepath.isRooted path))

/-- The directory holding `path`: `filepath.Dir`. -/
def parent (path : Str) : Str :=
  filepath.Clean (path.reverse.dropWhile (fun c => c ≠ '/')).reverse

/-- Go `os.MkdirAll(path, 0755)`: creates `path` and every missing ancestor; fails
(`none`) when one of them exists as a regular file. -/
def MkdirAll (fs : FS) (path : Str) : Option FS :=
  if (dirChain path).any (fun p => (fs.files p).isSome) then none
  else some { fs with dirs := fun p => decide (p ∈ dirChain path) || fs.dirs p }

/-- Go `os.Create(path)` followed by `io.Copy` of `payload` into the new file: the
file is created or truncated, then filled; fails (`none`) when `path` is a
directory or its parent directory does not exist. -/
def Create (fs : FS) (path payload : Str) : Option FS :=
  if fs.dirs path || !fs.dirs (parent path) then none
  else some { fs with files := fun p => if p = path then some payload else fs.files p }

end os

/-! ## `unTarGz` -/

/-- Go `tar.Header.Typeflag`, as far as `unTarGz` tells the values apart. -/
inductive Typeflag
  | TypeDir
  | TypeReg
  | other
  deriving DecidableEq, Repr

/-- The fields of `tar.Header` the extractor reads. -/
structure Header where
  Name : Str
  Typeflag : Typeflag

/-- One entry of the tar stream: its header and the bytes that follow. -/
structure TarEntry where
  header : Header
  payload : Str

/-- The archive `srcFile` as the readers see it. -/
structure Archive where
  /-- Go `os.Open(srcFile)` succeeds. -/
  opens : Bool
  /-- Go `gzip.NewReader` accepts the stream. -/
  gzipOk : Bool
  /-- The entries `tarReader.Next()` yields, in order. -/
  entries : List TarEntry
  /-- After the last entry `Next()` yields `io.EOF` (`true`) or another error. -/
  endsWithEOF : Bool

/-- How a call ends. -/
inductive Outcome
  /-- The call returned `nil`. -/
  | ok
  /-- The call returned a non-nil error. -/
  | error
  /-- The process ended inside the call. -/
  | fatal
  /-- The call ended in a run-time panic (an assignment to an entry of a nil
  map). -/
  | panic
  deriving DecidableEq, Repr

namespace log

/-- Modelled from the spec: `log.Log.Fatalln` and `log.Log.Fatalf` of the package
`logsviewer/pkg/backend/log`, which is not among the sources. The spec calls the
errors logged this way "fatal to the entire process (abort-with-log)": the call
in which one is logged does not return, the process ends there. -/
def Fatalln : Outcome := .fatal

end log

/-- The sentinel test of line 124: the name contains `namespaces/` or
`cluster-scoped-resources/`. -/
def qualifies (name : Str) : Bool :=
  strings.Contains name "namespaces/".toList ||
    strings.Contains name "cluster-scoped-resources/".toList

/-- The loop `for _, ps := range sp` of lines 133-139: append the segments to
`namespacePrefixPath` until a sentinel segment is met. -/
def prefixLoop : List Str → List Str → List Str
  | [], namespacePrefixPath => namespacePrefixPath
  | ps :: sp, namespacePrefixPath =>
    if ps = "namespaces".toList ∨ ps = "cluster-scoped-resources".toList then
      namespacePrefixPath
    else prefixLoop sp (namespacePrefixPath ++ [ps])

/-- Lines 128-140: `namespacePrefixPath` after the guarded computation for an
entry named `name`. -/
def updatePrefix (namespacePrefixPath : List Str) (name : Str) : List Str :=
  if namespacePrefixPath.length = 0 then
    prefixLoop (strings.Split name '/') namespacePrefixPath
  else namespacePrefixPath

/-- Lines 141-142: `workingHeaderName`, the entry name with the joined
`namespacePrefixPath` trimmed from its front. -/
def workingHeaderName (namespacePrefixPath : List Str) (name : Str) : Str :=
  let pathToNamespacesDir := strings.Join namespacePrefixPath ['/']
  strings.TrimPrefix name pathToNamespacesDir

/-- Line 143: the destination `newTarget` of an entry named `name`. -/
def joinTarget (targetPath : Str) (namespacePrefixPath : List Str) (name : Str) : Str :=
  filepath.Join targetPath (workingHeaderName namespacePrefixPath name)

/-- Lines 153-168: the path handed to `os.Create` for a regular file whose
destination is `newTarget`. -/
def createTarget (fs : FS) (newTarget : Str) : Str :=
  if os.Stat fs newTarget then versionedTarget newTarget else newTarget

/-- The state the loop of `unTarGz` carries from entry to entry. -/
structure ExtractState where
  fs : FS
  namespacePrefixPath : List Str

/-- The value of `workingHeaderName` (line 142) for the entry `e` met in the
state `st`. -/
def entryWorkingName (st : ExtractState) (e : TarEntry) : Str :=
  workingHeaderName (updatePrefix st.namespacePrefixPath e.header.Name) e.header.Name

/-- The value of `newTarget` at line 143 for the entry `e` met in the state
`st`. -/
def entryTarget (targetPath : Str) (st : ExtractState) (e : TarEntry) : Str :=
  joinTarget targetPath (updatePrefix st.namespacePrefixPath e.header.Name) e.header.Name

/-- One iteration of the loop of `unTarGz` for the entry `e`: the state after
it, and whether the iteration ended in `log.Log.Fatalln` or `Fatalf`. -/
def unTarGzEntry (targetPath : Str) (st : ExtractState) (e : TarEntry) :
    ExtractState × Bool :=
  if !qualifies e.header.Name then (st, false)
  else
    let namespacePrefixPath := updatePrefix st.namespacePrefixPath e.header.Name
    let newTarget := entryTarget targetPath st e
    match e.header.Typeflag with
    | .TypeDir =>
      match os.MkdirAll st.fs newTarget with
      | none => ({ st with namespacePrefixPath := namespacePrefixPath }, true)
      | some fs => ({ fs := fs, namespacePrefixPath := namespacePrefixPath }, false)
    | .TypeReg =>
      match os.Create st.fs (createTarget st.fs newTarget) e.payload with
      | none => ({ st with namespacePrefixPath := namespacePrefixPath }, true)
      | some fs => ({ fs := fs, namespacePrefixPath := namespacePrefixPath }, false)
    | .other => ({ st with namespacePrefixPath := namespacePrefixPath }, true)

/-- The loop `for true` of `unTarGz` over the entries still to come. -/
def unTarGzLoop (targetPath : Str) (endsWithEOF : Bool) :
    ExtractState → List TarEntry → ExtractState × Outcome
  | st, [] => (st, if endsWithEOF then .ok else log.Fatalln)
  | st, e :: es =>
    match unTarGzEntry targetPath st e with
    | (st1, true) => (st1, log.Fatalln)
    | (st1, false) => unTarGzLoop targetPath endsWithEOF st1 es

/-- Go `unTarGz(srcFile, targetPath)` run on the file system `fs`, `srcFile` being
the archive `a`. -/
def unTarGz (a : Archive) (targetPath : Str) (fs : FS) : FS × Outcome :=
  if !a.opens then (fs, log.Fatalln)
  else if !a.gzipOk then (fs, log.Fatalln)
  else
    let r := unTarGzLoop targetPath a.endsWithEOF
      { fs := fs, namespacePrefixPath := [] } a.entries
    (r.1.fs, r.2)

/-- Whether `path` lies strictly inside the directory `dir`: both are rooted or
both are not, the cleaned elements of `dir` are a proper initial part of those
of `path`, and none of the further elements is `..`. -/
def strictlyInside (dir path : Str) : Bool :=
  let d := filepath.cleanElems dir
  let p := filepath.cleanElems path
  (filepath.isRooted dir == filepath.isRooted path) && d.isPrefixOf p &&
    decide (d.length < p.length) && !(p.drop d.length).contains ['.', '.']

/-- A file system holding only the directory `targetPath` (and its ancestors). -/
def emptyTarget (targetPath : Str) : FS :=
  { files := fun _ => none, dirs := fun p => decide (p ∈ os.dirChain targetPath) }

/-! ## Pods and the enrichment index -/

/-- Go `OwnerReference`. -/
structure OwnerReference where
  UID : Str
  deriving DecidableEq

/-- Go `Metadata`; a slice is `none` when it is `nil`. -/
structure Metadata where
  Namespace : Str
  Name : Str
  OwnerReferences : Option (List OwnerReference)
  UID : Str
  deriving DecidableEq

/-- Go `Spec`. -/
structure Spec where
  NodeName : Str
  deriving DecidableEq

/-- Go `Status`. -/
structure Status where
  HostIP : Str
  deriving DecidableEq

/-- Go `Pods`. -/
structure Pods where
  Metadata : Metadata
  Spec : Spec
  Status : Status
  deriving DecidableEq

/-- The zero value of `Pods` (`var pod Pods`). -/
def Pods.zero : Pods :=
  { Metadata := { Namespace := [], Name := [], OwnerReferences := none, UID := [] },
    Spec := { NodeName := [] }, Status := { HostIP := [] } }

/-- Go `EnrichmentData`; `OwnerReferences` is `none` when the slice is `nil`. -/
structure EnrichmentData where
  HostName : Str
  HostIP : Str
  UID : Str
  OwnerReferences : Option (List Str)
  deriving DecidableEq

/-- Go `map[string]EnrichmentData`. -/
abbrev LookupData := Str → Option EnrichmentData

/-- A decoded Kubernetes or KubeVirt object (`k8sv1.Pod`,
`kubevirtv1.VirtualMachineInstance`, ...), identified by its text. -/
abbrev Object := Str

/-- What `objectStore.Add` receives. -/
inductive Record
  | Pod (o : Object)
  | VirtualMachineInstance (o : Object)
  deriving DecidableEq

/-- Modelled from the spec: `ObjectStore.Add` of the package
`logsviewer/pkg/backend/db`, which is not among the sources. The spec says it
"accepts any ResourceRecord variant; enqueues for asynchronous persistence"; the
store is the sequence of records enqueued so far. -/
def ObjectStore.Add (store : List Record) (r : Record) : List Record := store ++ [r]

/-- The fields of `logsHandler` that ingestion reads and writes (`handlerLock`
and `stopCh` left out); `objectStore` is the sequence of records added so far. -/
structure logsHandler where
  lookupData : LookupData
  objectStore : List Record

/-- Go `NewLogsHandler`: an empty `lookupData` and an empty store. -/
def NewLogsHandler : logsHandler := { lookupData := fun _ => none, objectStore := [] }

/-- The key `ownerReferences` of a pod document. -/
inductive OwnerRefsDoc
  /-- The key is not in the document. -/
  | absent
  /-- The key holds `null`. -/
  | null
  /-- The key holds a list of references, each given by its `uid`. -/
  | items (uids : List Str)
  deriving DecidableEq

/-- The `metadata` object of a pod document: for each key `Pods` knows, its
value if the document has the key (`ns` is the key `namespace`). -/
structure MetadataDoc where
  ns : Option Str
  name : Option Str
  ownerReferences : OwnerRefsDoc
  uid : Option Str
  deriving DecidableEq

/-- A pod document: for each key `Pods` knows, its value if present. A key that
holds `null` counts as not present, except for `ownerReferences`. -/
structure PodDoc where
  /-- The object `metadata`, if the document has it. -/
  metadata : Option MetadataDoc
  /-- The object `spec`, if the document has it, given by its key `nodeName`, if
  it has one. -/
  nodeName : Option (Option Str)
  /-- The object `status`, if the document has it, given by its key `hostIP`, if
  it has one. -/
  hostIP : Option (Option Str)
  deriving DecidableEq

/-- A file matched by `/space/namespaces/*/pods/*/*.yaml`. -/
structure PodFile where
  /-- Go `ioutil.ReadFile` succeeds. -/
  readable : Bool
  /-- The document `yaml.Unmarshal(yamlFile, &pod)` reads for a `Pods` value;
  `none` when it returns an error. -/
  pods : Option PodDoc
  /-- The object `yaml.Unmarshal` reads for a `k8sv1.Pod` in `storePodData`;
  `none` when it returns an error. -/
  k8s : Option Object
  deriving DecidableEq

/-- A string field after decoding: set if the document has the key. -/
def decodeField (doc : Option Str) (old : Str) : Str := doc.getD old

/-- Go `yaml.Unmarshal(yamlFile, &pod)` (sigs.k8s.io/yaml, that is `encoding/json`
decoding) into an existing `Pods` value: the keys of the document overwrite
their fields, every other field keeps the value it had. -/
def yamlUnmarshal (doc : PodDoc) (pod : Pods) : Pods :=
  { Metadata :=
      match doc.metadata with
      | none => pod.Metadata
      | some m =>
        { Namespace := decodeField m.ns pod.Metadata.Namespace
          Name := decodeField m.name pod.Metadata.Name
          OwnerReferences :=
            match m.ownerReferences with
            | .absent => pod.Metadata.OwnerReferences
            | .null => none
            | .items uids => some (uids.map OwnerReference.mk)
          UID := decodeField m.uid pod.Metadata.UID }
    Spec :=
      match doc.nodeName with
      | none => pod.Spec
      | some n => { NodeName := decodeField n pod.Spec.NodeName }
    Status :=
      match doc.hostIP with
      | none => pod.Status
      | some h => { HostIP := decodeField h pod.Status.HostIP } }

/-- Go `append(s, x)` on a slice that may be `nil`. -/
def goAppend (s : Option (List Str)) (x : Str) : Option (List Str) :=
  match s with
  | none => some [x]
  | some l => some (l ++ [x])

/-- The key `fmt.Sprintf("%s/%s", namespace, name)`. -/
def lookupKey (pod : Pods) : Str := pod.Metadata.Namespace ++ '/' :: pod.Metadata.Name

/-- The `enrichmentData` value `processEnrichmentData` builds for `pod`. -/
def enrichmentOf (pod : Pods) : EnrichmentData :=
  let enrichmentData : EnrichmentData :=
    { HostName := pod.Spec.NodeName, HostIP := pod.Status.HostIP, UID := pod.Metadata.UID,
      OwnerReferences := none }
  match pod.Metadata.OwnerReferences with
  | none => enrichmentData
  | some refs =>
    refs.foldl
      (fun e ref => { e with OwnerReferences := goAppend e.OwnerReferences ref.UID })
      enrichmentData

/-- Go `processEnrichmentData(pod)` on a handler whose map is allocated (on a nil
map the assignment panics, see `podLoop`). -/
def processEnrichmentData (l : logsHandler) (pod : Pods) : logsHandler :=
  let key := lookupKey pod
  let enrichmentData := enrichmentOf pod
  { l with lookupData := fun k => if k = key then some enrichmentData else l.lookupData k }

/-- Go `storePodData(yamlFile)`: a decoding error is fatal, otherwise the pod is
added to the object store. -/
def storePodData (l : logsHandler) (f : PodFile) : logsHandler × Outcome :=
  match f.k8s with
  | none => (l, log.Fatalln)
  | some pod => ({ l with objectStore := ObjectStore.Add l.objectStore (.Pod pod) }, .ok)

/-- The handler as a pod-ingestion pass finds and leaves it: `lookupData` is an
allocated map (`live`), or the nil map that `json.Unmarshal` leaves behind after
reading `null` (`nilMap`). -/
inductive Handler
  /-- The map is allocated: the handler is a `logsHandler` as above. -/
  | live (l : logsHandler)
  /-- The map is nil; only the object store is left. -/
  | nilMap (objectStore : List Record)

/-- Reading `l.lookupData[key]`: a nil map has no entry. -/
def Handler.lookupData : Handler → LookupData
  | .live l => l.lookupData
  | .nilMap _ => fun _ => none

/-- The object store of the handler. -/
def Handler.objectStore : Handler → List Record
  | .live l => l.objectStore
  | .nilMap objectStore => objectStore

/-- The enrichment data file `ENRICHMENT_DATA_FILE`. -/
inductive IndexFile
  /-- Go `os.Open` fails. -/
  | absent
  /-- Go `os.Open` succeeds and `ioutil.ReadAll` fails: the path is a directory,
  which `ioutil.WriteFile` cannot open for writing either. -/
  | unreadable
  /-- The file holds the JSON value `null`. -/
  | null
  /-- The file can be read and does not hold `null`; `entries` is the JSON object
  `json.Unmarshal` finds in it (no entry at all when the bytes are not a JSON
  object). -/
  | content (entries : LookupData)

/-- Go `loadExistingEnrichmentData`: `json.Unmarshal` into `&l.lookupData` sets
the map to nil when the file holds `null`; otherwise it keeps the entries of the
map (allocating one if it is nil) and sets those of the file. The error of
`Unmarshal` is dropped. -/
def loadExistingEnrichmentData (h : Handler) (file : IndexFile) : Handler × Outcome :=
  match file with
  | .absent => (h, .error)
  | .unreadable => (h, .error)
  | .null => (.nilMap h.objectStore, .ok)
  | .content entries =>
    (.live
      { lookupData := fun k =>
          match entries k with
          | some e => some e
          | none => h.lookupData k
        objectStore := h.objectStore }, .ok)

/-- The value of an entry as `json.Marshal` writes it and `json.Unmarshal` reads
it back: `pod.ownerReferences` is `omitempty`, so an empty slice comes back
`nil`. -/
def marshalEntry (e : EnrichmentData) : EnrichmentData :=
  { e with
    OwnerReferences :=
      match e.OwnerReferences with
      | some [] => none
      | refs => refs }

/-- The JSON object `json.Marshal` writes for an allocated map. -/
def marshal (lookupData : LookupData) : LookupData :=
  fun k => (lookupData k).map marshalEntry

/-- The document `json.Marshal(l.lookupData)` produces, as the file that holds
it: `null` for a nil map, an object otherwise. -/
def marshalLookupData : Handler → IndexFile
  | .live l => .content (marshal l.lookupData)
  | .nilMap _ => .null

/-- How `ioutil.WriteFile` ends. -/
inductive WriteResult
  /-- The file holds the document. -/
  | written
  /-- The file could not be opened for writing and is left as it was. -/
  | refused
  /-- The file was opened and truncated, then the write failed: it holds a proper
  part of the document, which is not JSON. -/
  | truncated
  deriving DecidableEq

/-- The enrichment data file after `ioutil.WriteFile(ENRICHMENT_DATA_FILE, js1,
0644)`; a directory is never written. -/
def writeFile (file js1 : IndexFile) (w : WriteResult) : IndexFile :=
  match file with
  | .unreadable => .unreadable
  | _ =>
    match w with
    | .written => js1
    | .refused => file
    | .truncated => .content (fun _ => none)

/-- The loop `for _, filename := range layouts` of `processPodYAMLs`; `pod` is
the variable declared before the loop. The assignment `l.lookupData[key] = ...`
of `processEnrichmentData` panics when the map is nil. -/
def podLoop : Handler → Pods → List PodFile → Handler × Outcome
  | h, _, [] => (h, .ok)
  | h, pod, f :: layouts =>
    if !f.readable then (h, .error)
    else
      match f.pods with
      | none => (h, .error)
      | some doc =>
        let pod := yamlUnmarshal doc pod
        match h with
        | .nilMap objectStore => (.nilMap objectStore, .panic)
        | .live l =>
          let l := processEnrichmentData l pod
          match storePodData l f with
          | (l, .fatal) => (.live l, .fatal)
          | (l, _) => podLoop (.live l) pod layouts

/-- The result of a pod-ingestion pass. -/
structure PassResult where
  /-- The handler after the pass. -/
  handler : Handler
  /-- The enrichment data file after the pass. -/
  file : IndexFile
  /-- How the call ended. -/
  outcome : Outcome
  /-- The document `js1` handed to `ioutil.WriteFile`, if the pass got there. -/
  written : Option IndexFile

/-- Go `processPodYAMLs`, `layouts` being the files the glob matches in order and
`w` the way `ioutil.WriteFile` ends if it is called. The glob pattern is
constant and well formed, so `filepath.Glob` returns no error; the errors of
`loadExistingEnrichmentData`, `json.Marshal` and `ioutil.WriteFile` are dropped
by the code. -/
def processPodYAMLs (h : Handler) (file : IndexFile) (layouts : List PodFile)
    (w : WriteResult) : PassResult :=
  let h := (loadExistingEnrichmentData h file).1
  match podLoop h Pods.zero layouts with
  | (h, .ok) =>
    { handler := h, file := writeFile file (marshalLookupData h) w, outcome := .ok,
      written := some (marshalLookupData h) }
  | (h, out) => { handler := h, file := file, outcome := out, written := none }

/-- The keys and entries the loop of `processPodYAMLs` stores in an allocated
map, in order. -/
def podEntries : Pods → List PodFile → List (Str × EnrichmentData)
  | _, [] => []
  | pod, f :: layouts =>
    if !f.readable then []
    else
      match f.pods with
      | none => []
      | some doc =>
        let pod := yamlUnmarshal doc pod
        (lookupKey pod, enrichmentOf pod) ::
          (match f.k8s with
           | none => []
           | some _ => podEntries pod layouts)

/-- The entries of the enrichment data file (none when it cannot be read or
holds `null`). -/
def IndexFile.entries : IndexFile → LookupData
  | .content entries => entries
  | _ => fun _ => none

/-- The index a pass serialises: the entries of the document it hands to
`ioutil.WriteFile` (none when it does not get there). -/
def PassResult.index (r : PassResult) : LookupData :=
  match r.written with
  | some js1 => js1.entries
  | none => fun _ => none

/-- A map after the assignments `m[key] = value` of `es`, in order. -/
def applyEntries (m : LookupData) (es : List (Str × EnrichmentData)) : LookupData :=
  es.foldl (fun m kv => fun k => if k = kv.1 then some kv.2 else m k) m

/-! ## Virtual machine instances -/

/-- A file matched by one of the two VMI patterns. -/
structure VMIFile where
  /-- Go `ioutil.ReadFile` succeeds. -/
  readable : Bool
  /-- The object `yaml.Unmarshal` reads in `storeVMIData`; `none` on error. -/
  single : Option Object
  /-- The successive results of `dec.Decode(&vmi)` on the bytes of the file up to
  the end of input, `none` for a document that fails to decode. -/
  stream : List (Option Object)

/-- Go `storeVMIData(yamlFile)`. -/
def storeVMIData (l : logsHandler) (f : VMIFile) : logsHandler × Outcome :=
  match f.single with
  | none => (l, log.Fatalln)
  | some vmi =>
    ({ l with objectStore := ObjectStore.Add l.objectStore (.VirtualMachineInstance vmi) }, .ok)

/-- The loop of `processCombinedVirtualMachineInstanceYAMLs`: `break` on the
first `Decode` that returns an error (`io.EOF` included). -/
def decodeLoop : logsHandler → List (Option Object) → logsHandler
  | l, [] => l
  | l, none :: _ => l
  | l, some vmi :: rest =>
    decodeLoop
      { l with objectStore := ObjectStore.Add l.objectStore (.VirtualMachineInstance vmi) } rest

/-- Go `processCombinedVirtualMachineInstanceYAMLs(yamlFile)`: always returns `nil`. -/
def processCombinedVirtualMachineInstanceYAMLs (l : logsHandler) (f : VMIFile) :
    logsHandler × Outcome :=
  (decodeLoop l f.stream, .ok)

/-- The first loop of `processVirtualMachineInstanceYAMLs`, over the
per-instance files. -/
def vmiLoop : logsHandler → List VMIFile → logsHandler × Outcome
  | l, [] => (l, .ok)
  | l, f :: layouts =>
    if !f.readable then (l, .error)
    else
      match storeVMIData l f with
      | (l, .fatal) => (l, .fatal)
      | (l, _) => vmiLoop l layouts

/-- The second loop of `processVirtualMachineInstanceYAMLs`, over the combined
files. -/
def combinedLoop : logsHandler → List VMIFile → logsHandler × Outcome
  | l, [] => (l, .ok)
  | l, f :: combinedYamls =>
    if !f.readable then (l, .error)
    else combinedLoop (processCombinedVirtualMachineInstanceYAMLs l f).1 combinedYamls

/-- Go `processVirtualMachineInstanceYAMLs`, `layouts` and `combinedYamls` being the
files the two globs match. -/
def processVirtualMachineInstanceYAMLs (l : logsHandler) (layouts combinedYamls : List VMIFile) :
    logsHandler × Outcome :=
  match vmiLoop l layouts with
  | (l, .ok) => if layouts.length = 0 then combinedLoop l combinedYamls else (l, .ok)
  | r => r


/-! ## Concrete inputs -/

/-- The archive of the collision example: the directory of pod `p1`, then the
same file name three times with three payloads. -/
def threeCollisions : Archive :=
  { opens := true, gzipOk := true, endsWithEOF := true,
    entries :=
      [ ⟨⟨"gather/namespaces/ns1/pods/p1/".toList, .TypeDir⟩, []⟩,
        ⟨⟨"gather/namespaces/ns1/pods/p1/p1.yaml".toList, .TypeReg⟩, "first".toList⟩,
        ⟨⟨"gather/namespaces/ns1/pods/p1/p1.yaml".toList, .TypeReg⟩, "second".toList⟩,
        ⟨⟨"gather/namespaces/ns1/pods/p1/p1.yaml".toList, .TypeReg⟩, "third".toList⟩ ] }

/-- An archive whose only entry climbs out of the `namespaces` tree. -/
def escapingArchive : Archive :=
  { opens := true, gzipOk := true, endsWithEOF := true,
    entries := [ ⟨⟨"namespaces/../../etc/passwd".toList, .TypeReg⟩, "root".toList⟩ ] }

/-- An archive whose only entry has `namespaces/` inside a longer segment. -/
def longSegmentArchive : Archive :=
  { opens := true, gzipOk := true, endsWithEOF := true,
    entries := [ ⟨⟨"xnamespaces/y".toList, .TypeReg⟩, "data".toList⟩ ] }

/-- A file system with the directories `/`, `/space` and `/etc` and no file. -/
def spaceAndEtc : FS :=
  { files := fun _ => none,
    dirs := fun p => decide (p ∈ ["/".toList, "/space".toList, "/etc".toList]) }

/-- A file system in which `/space/namespaces/ns1/pods/p1/p1.yaml` exists. -/
def onePodFile : FS :=
  { files := fun p =>
      if p = "/space/namespaces/ns1/pods/p1/p1.yaml".toList then some "first".toList else none,
    dirs := fun p => decide (p ∈ os.dirChain "/space/namespaces/ns1/pods/p1".toList) }

/-- Two directory entries: the first starts with the sentinel segment, the
second has the prefix `gather`. -/
def mixedRoots : List TarEntry :=
  [ ⟨⟨"namespaces/a/".toList, .TypeDir⟩, []⟩,
    ⟨⟨"gather/namespaces/b/".toList, .TypeDir⟩, []⟩ ]

/-- Pod `ns1/a`, owned by a replica set. -/
def podFileA : PodFile :=
  { readable := true,
    pods := some
      { metadata := some
          { ns := some "ns1".toList, name := some "a".toList,
            ownerReferences := .items ["uid-rs".toList], uid := some "uid-a".toList },
        nodeName := some (some "node1".toList), hostIP := some (some "10.0.0.1".toList) },
    k8s := some "pod ns1/a".toList }

/-- Pod `ns1/b`, whose document has no `ownerReferences` key. -/
def podFileB : PodFile :=
  { readable := true,
    pods := some
      { metadata := some
          { ns := some "ns1".toList, name := some "b".toList,
            ownerReferences := .absent, uid := some "uid-b".toList },
        nodeName := some (some "node2".toList), hostIP := some (some "10.0.0.2".toList) },
    k8s := some "pod ns1/b".toList }

/-- A combined VMI file of three documents, the second of which does not
decode. -/
def brokenCombined : VMIFile :=
  { readable := true, single := none,
    stream := [some "vmi-1".toList, none, some "vmi-3".toList] }

/-! ## Notions used in the statements and proofs -/

namespace filepath

/-- An element `Clean` keeps: not empty, not `.`, without separator. -/
def validElem (e : Str) : Prop := e ≠ [] ∧ e ≠ ['.'] ∧ '/' ∉ e

/-- The shape of the elements `Clean` has kept (innermost first): valid elements,
with `..` only in an outermost block and only in a path that is not rooted. -/
def okStack (rooted : Bool) : List Str → Prop
  | [] => True
  | x :: rest =>
    validElem x ∧ (x = ['.', '.'] → rooted = false ∧ ∀ y ∈ rest, y = ['.', '.']) ∧
      okStack rooted rest

/-- The text in front of the last element of a rendered path. -/
def dirPart (rooted : Bool) (init : List Str) : Str :=
  (if rooted then ['/'] else []) ++ init.foldr (fun e acc => e ++ '/' :: acc) []

end filepath

/-- The owner UIDs of a pod: `nil` without references, else their UIDs in order. -/
def ownerUIDs (refs : Option (List OwnerReference)) : Option (List Str) :=
  match refs with
  | none => none
  | some [] => none
  | some (r :: rs) => some ((r :: rs).map (fun ref => ref.UID))

/-! ## Facts about the string library -/

namespace strings

theorem hasSuffix_iff (s p : Str) : HasSuffix s p = true ↔ ∃ t, s = t ++ p := by
  unfold HasSuffix
  rw [List.isPrefixOf_iff_prefix, List.reverse_prefix]
  constructor
  · rintro ⟨t, rfl⟩; exact ⟨t, rfl⟩
  · rintro ⟨t, rfl⟩; exact ⟨t, rfl⟩

theorem trimSuffix_append (t p : Str) : TrimSuffix (t ++ p) p = t := by
  have h : HasSuffix (t ++ p) p = true := (hasSuffix_iff _ _).2 ⟨t, rfl⟩
  simp [TrimSuffix, h]

theorem trimSuffix_of_not (s p : Str) (h : HasSuffix s p = false) : TrimSuffix s p = s := by
  simp [TrimSuffix, h]

theorem trimSuffix_cases (s p : Str) :
    (TrimSuffix s p = s ∧ HasSuffix s p = false) ∨ s = TrimSuffix s p ++ p := by
  cases h : HasSuffix s p
  · exact Or.inl ⟨trimSuffix_of_not s p h, rfl⟩
  · obtain ⟨t, rfl⟩ := (hasSuffix_iff s p).1 h
    exact Or.inr (by rw [trimSuffix_append])

end strings

namespace filepath

theorem extScan_suffix (rev suffix : Str) :
    extScan rev suffix = [] ∨ ∃ pre, rev.reverse ++ suffix = pre ++ extScan rev suffix := by
  induction rev generalizing suffix with
  | nil => exact Or.inl rfl
  | cons c rev ih =>
    unfold extScan
    by_cases h1 : c = '/'
    · simp [h1]
    · by_cases h2 : c = '.'
      · right
        refine ⟨rev.reverse, ?_⟩
        simp [h2]
      · simp only [h1, h2, if_false]
        rcases ih (c :: suffix) with h | ⟨pre, h⟩
        · exact Or.inl h
        · right
          refine ⟨pre, ?_⟩
          rw [← h]; simp

theorem trimSuffix_ext (path : Str) :
    strings.TrimSuffix path (Ext path) ++ Ext path = path := by
  rcases extScan_suffix path.reverse [] with h | ⟨pre, h⟩
  · have : Ext path = [] := h
    rw [this]
    simp [strings.TrimSuffix, strings.HasSuffix]
  · have h2 : path = pre ++ Ext path := by simpa [Ext] using h
    generalize Ext path = e at h2 ⊢
    subst h2
    rw [strings.trimSuffix_append]

end filepath

/-! ## Decimal rendering and parsing -/

/-- The character of a decimal digit is a digit byte, and its offset from `'0'`
is the digit. -/
theorem digitChar_spec (m : Nat) (hm : m < 10) :
    strconv.isDigit (Nat.digitChar m) = true ∧ (Nat.digitChar m).toNat - 48 = m := by
  interval_cases m <;> exact ⟨rfl, rfl⟩

theorem digitsVal_append (a : Nat) (xs ys : Str) :
    strconv.digitsVal a (xs ++ ys) = strconv.digitsVal (strconv.digitsVal a xs) ys := by
  induction xs generalizing a with
  | nil => rfl
  | cons c cs ih => exact ih (a * 10 + (c.toNat - 48))

theorem digitsVal_singleton (a : Nat) (c : Char) :
    strconv.digitsVal a [c] = a * 10 + (c.toNat - 48) := rfl

/-- The accumulator of `Nat.toDigitsCore` only trails the output, and any fuel
above the number gives the same digits. -/
theorem toDigitsCore_acc (n : Nat) : ∀ (fuel : Nat) (acc : Str), n < fuel →
    Nat.toDigitsCore 10 fuel n acc = Nat.toDigits 10 n ++ acc := by
  induction n using Nat.strong_induction_on with
  | _ n ih =>
    intro fuel acc hlt
    obtain ⟨f, rfl⟩ : ∃ f, fuel = f + 1 := ⟨fuel - 1, by omega⟩
    by_cases hq : n / 10 = 0
    · simp [Nat.toDigits, Nat.toDigitsCore, hq]
    · have hsmall : n / 10 < n := by omega
      have hleft := ih (n / 10) hsmall f (Nat.digitChar (n % 10) :: acc) (by omega)
      have hright := ih (n / 10) hsmall n [Nat.digitChar (n % 10)] hsmall
      simp only [Nat.toDigits, Nat.toDigitsCore, hq, if_false]
      simp only [Nat.toDigits] at hleft hright
      rw [hleft, hright]
      simp

/-- Decimal digits, one step at a time. -/
theorem toDigits_step (n : Nat) :
    Nat.toDigits 10 n =
      if n < 10 then [Nat.digitChar n]
      else Nat.toDigits 10 (n / 10) ++ [Nat.digitChar (n % 10)] := by
  by_cases hq : n < 10
  · have h0 : n / 10 = 0 := by omega
    have hm : n % 10 = n := by omega
    simp [Nat.toDigits, Nat.toDigitsCore, h0, hm, hq]
  · have h0 : n / 10 ≠ 0 := by omega
    rw [if_neg hq]
    have := toDigitsCore_acc (n / 10) n [Nat.digitChar (n % 10)] (by omega)
    simp only [Nat.toDigits, Nat.toDigitsCore, h0, if_false] at this ⊢
    exact this

theorem toDigits_ne_nil (n : Nat) : Nat.toDigits 10 n ≠ [] := by
  rw [toDigits_step]
  split_ifs <;> simp

theorem toDigits_isDigit (n : Nat) : ∀ c ∈ Nat.toDigits 10 n, strconv.isDigit c = true := by
  induction n using Nat.strong_induction_on with
  | _ n ih =>
    intro c hc
    rw [toDigits_step] at hc
    split_ifs at hc with hq
    · rw [List.mem_singleton.1 hc]
      exact (digitChar_spec n hq).1
    · rcases List.mem_append.1 hc with h | h
      · exact ih (n / 10) (by omega) c h
      · rw [List.mem_singleton.1 h]
        exact (digitChar_spec (n % 10) (Nat.mod_lt _ (by omega))).1

theorem digitsVal_toDigits (n : Nat) : strconv.digitsVal 0 (Nat.toDigits 10 n) = n := by
  induction n using Nat.strong_induction_on with
  | _ n ih =>
    rw [toDigits_step]
    split_ifs with hq
    · rw [digitsVal_singleton, (digitChar_spec n hq).2]
      omega
    · rw [digitsVal_append, ih (n / 10) (by omega), digitsVal_singleton,
        (digitChar_spec (n % 10) (Nat.mod_lt _ (by omega))).2]
      omega

theorem toDigits_spec (n : Nat) :
    Nat.toDigits 10 n ≠ [] ∧ (∀ c ∈ Nat.toDigits 10 n, strconv.isDigit c = true) ∧
      strconv.digitsVal 0 (Nat.toDigits 10 n) = n :=
  ⟨toDigits_ne_nil n, toDigits_isDigit n, digitsVal_toDigits n⟩

theorem isDigit_not_sign (c : Char) (h : strconv.isDigit c = true) : c ≠ '-' ∧ c ≠ '+' := by
  constructor <;> rintro rfl <;> revert h <;> decide

/-- Parsing the digit run `ds` (not starting with a sign). -/
theorem atoi_digits (ds : Str) (hne : ds ≠ []) (hdig : ∀ c ∈ ds, strconv.isDigit c = true)
    (hr : strconv.digitsVal 0 ds < 2 ^ (intSize - 1)) :
    strconv.Atoi ds = some (strconv.digitsVal 0 ds : Int) := by
  cases ds with
  | nil => exact absurd rfl hne
  | cons c rest =>
    have hs := isDigit_not_sign c (hdig c (List.mem_cons_self _ _))
    have hall : (c :: rest).all strconv.isDigit = true := by
      rw [List.all_eq_true]; exact hdig
    unfold strconv.Atoi
    simp only [hs.1, hs.2, or_self, if_false, hall, Bool.not_true, decide_False]
    simp [Nat.not_le.2 hr]

/-- Parsing `-` followed by the digit run `ds`. -/
theorem atoi_neg_digits (ds : Str) (hne : ds ≠ []) (hdig : ∀ c ∈ ds, strconv.isDigit c = true)
    (hr : strconv.digitsVal 0 ds ≤ 2 ^ (intSize - 1)) :
    strconv.Atoi ('-' :: ds) = some (-(strconv.digitsVal 0 ds : Int)) := by
  have hall : ds.all strconv.isDigit = true := by
    rw [List.all_eq_true]; exact hdig
  unfold strconv.Atoi
  simp [hne, hall, Nat.not_lt.2 hr]

theorem atoi_fmt (n : Int) (h1 : minInt ≤ n) (h2 : n ≤ maxInt) :
    strconv.Atoi (fmt.d n) = some n := by
  unfold minInt at h1
  unfold maxInt at h2
  unfold fmt.d
  by_cases hn : n < 0
  · rw [if_pos hn]
    obtain ⟨hne, hdig, hval⟩ := toDigits_spec n.natAbs
    rw [atoi_neg_digits _ hne hdig (by rw [hval]; simp [intSize] at *; omega), hval]
    congr 1; omega
  · rw [if_neg hn]
    obtain ⟨hne, hdig, hval⟩ := toDigits_spec n.toNat
    rw [atoi_digits _ hne hdig (by rw [hval]; simp [intSize] at *; omega), hval]
    congr 1; omega

theorem atoi_range (s : Str) (n : Int) (h : strconv.Atoi s = some n) :
    minInt ≤ n ∧ n ≤ maxInt := by
  unfold strconv.Atoi at h
  unfold minInt maxInt
  cases s with
  | nil => simp at h
  | cons c rest =>
    simp only at h
    split_ifs at h <;> simp only [Option.some.injEq, reduceCtorEq] at h <;>
      subst h <;> simp [intSize] at * <;> omega

theorem wrapInt_range (x : Int) : minInt ≤ wrapInt x ∧ wrapInt x ≤ maxInt := by
  unfold wrapInt minInt maxInt
  simp only [intSize]
  omega

theorem wrapInt_succ_ne (n : Int) : wrapInt (n + 1) ≠ n := by
  unfold wrapInt
  simp only [intSize]
  omega

theorem fmt_d_injective (n m : Int) (hn : minInt ≤ n ∧ n ≤ maxInt) (hm : minInt ≤ m ∧ m ≤ maxInt)
    (h : fmt.d n = fmt.d m) : n = m := by
  have e1 := atoi_fmt n hn.1 hn.2
  have e2 := atoi_fmt m hm.1 hm.2
  rw [h, e2] at e1
  exact (Option.some.inj e1).symm

/-! ## The collision rename never returns its argument -/

theorem versionedTarget_ne (newTarget : Str) : versionedTarget newTarget ≠ newTarget := by
  intro h
  have h0 := h.trans (filepath.trimSuffix_ext newTarget).symm
  unfold versionedTarget at h0
  simp only at h0
  generalize strings.TrimSuffix newTarget (filepath.Ext newTarget) = fb at h0
  have h' := List.append_cancel_right h0
  clear h h0
  cases ha : strconv.Atoi ((strings.Split fb '_').getLast?.getD []) with
  | none =>
    rw [ha] at h'
    have := congrArg List.length h'
    simp at this
  | some n =>
    rw [ha] at h'
    simp only at h'
    have hr := atoi_range _ _ ha
    rcases strings.trimSuffix_cases fb ('_' :: fmt.d n) with ⟨h1, _⟩ | h1
    · rw [h1] at h'
      have := congrArg List.length h'
      simp at this
    · generalize strings.TrimSuffix fb ('_' :: fmt.d n) = fileN at h1 h'
      rw [h1] at h'
      have h2 := List.append_cancel_left h'
      simp only [List.cons.injEq, true_and] at h2
      exact wrapInt_succ_ne n
        (fmt_d_injective _ _ (wrapInt_range _) hr h2)

/-! ## Facts about `Split`, `Join` and `Clean` -/

namespace strings

theorem split_ne_nil (s : Str) (sep : Char) : Split s sep ≠ [] := by
  cases s with
  | nil => simp [Split]
  | cons c cs =>
    unfold Split
    split_ifs
    · simp
    · split <;> simp

theorem split_cons_sep (s : Str) (sep : Char) : Split (sep :: s) sep = [] :: Split s sep := by
  simp [Split]

theorem split_cons_of_ne (c : Char) (s : Str) (sep : Char) (h : c ≠ sep) (piece : Str)
    (pieces : List Str) (hs : Split s sep = piece :: pieces) :
    Split (c :: s) sep = (c :: piece) :: pieces := by
  rw [Split, if_neg h, hs]

/-- Splitting at a separator splits the list of pieces. -/
theorem split_append_sep (a b : Str) (sep : Char) :
    Split (a ++ sep :: b) sep = Split a sep ++ Split b sep := by
  induction a with
  | nil => simp [Split]
  | cons c a ih =>
    by_cases h : c = sep
    · subst h
      rw [List.cons_append, split_cons_sep, split_cons_sep, ih, List.cons_append]
    · obtain ⟨piece, pieces, hp⟩ := List.exists_cons_of_ne_nil (split_ne_nil a sep)
      rw [List.cons_append, split_cons_of_ne c _ sep h piece (pieces ++ Split b sep)
        (by rw [ih, hp, List.cons_append]), split_cons_of_ne c a sep h piece pieces hp,
        List.cons_append]

theorem split_of_not_mem (s : Str) (sep : Char) (h : sep ∉ s) : Split s sep = [s] := by
  induction s with
  | nil => rfl
  | cons c s ih =>
    have hc : c ≠ sep := fun e => h (by simp [e])
    have hs : sep ∉ s := fun e => h (List.mem_cons_of_mem _ e)
    exact split_cons_of_ne c s sep hc s [] (ih hs)

theorem not_mem_of_mem_split (s : Str) (sep : Char) :
    ∀ piece ∈ Split s sep, sep ∉ piece := by
  induction s with
  | nil => intro piece hp; simp [Split] at hp; simp [hp]
  | cons c s ih =>
    intro piece hp
    by_cases h : c = sep
    · subst h
      rw [split_cons_sep] at hp
      rcases List.mem_cons.1 hp with rfl | hp
      · simp
      · exact ih piece hp
    · obtain ⟨p0, ps, hps⟩ := List.exists_cons_of_ne_nil (split_ne_nil s sep)
      rw [split_cons_of_ne c s sep h p0 ps hps] at hp
      rcases List.mem_cons.1 hp with rfl | hp
      · have := ih p0 (by rw [hps]; exact List.mem_cons_self _ _)
        intro hmem
        rcases List.mem_cons.1 hmem with e | e
        · exact h e.symm
        · exact this e
      · exact ih piece (by rw [hps]; exact List.mem_cons_of_mem _ hp)

theorem join_cons_cons (e e2 : Str) (es : List Str) (sep : Str) :
    Join (e :: e2 :: es) sep = e ++ sep ++ Join (e2 :: es) sep := rfl

/-- Splitting what `Join` glued gives the pieces back. -/
theorem split_join (es : List Str) (sep : Char) (hne : es ≠ [])
    (h : ∀ e ∈ es, sep ∉ e) : Split (Join es [sep]) sep = es := by
  induction es with
  | nil => exact absurd rfl hne
  | cons e es ih =>
    cases es with
    | nil => exact split_of_not_mem e sep (h e (List.mem_cons_self _ _))
    | cons e2 es =>
      rw [join_cons_cons, List.append_assoc, List.singleton_append, split_append_sep,
        split_of_not_mem e sep (h e (List.mem_cons_self _ _)),
        ih (by simp) (fun x hx => h x (List.mem_cons_of_mem _ hx))]
      rfl

end strings

namespace filepath

theorem okStack_cleanStep (rooted : Bool) (kept : List Str) (elem : Str)
    (hk : okStack rooted kept) (he : '/' ∉ elem) : okStack rooted (cleanStep rooted kept elem) := by
  unfold cleanStep
  by_cases h1 : elem = [] ∨ elem = ['.']
  · rw [if_pos h1]; exact hk
  · rw [if_neg h1]
    have hv : validElem elem := ⟨fun e => h1 (Or.inl e), fun e => h1 (Or.inr e), he⟩
    by_cases h2 : elem = ['.', '.']
    · rw [if_pos h2]
      cases kept with
      | nil =>
        cases rooted
        · exact ⟨hv, fun _ => ⟨rfl, by simp⟩, trivial⟩
        · exact trivial
      | cons top below =>
        by_cases h3 : top = ['.', '.']
        · simp only [h3, if_true]
          cases rooted
          · refine ⟨hv, fun _ => ⟨rfl, ?_⟩, ?_⟩
            · intro y hy
              rcases List.mem_cons.1 hy with rfl | hy
              · rfl
              · exact (hk.2.1 h3).2 y hy
            · rw [← h3]; exact hk
          · rw [← h3]; exact hk
        · simp only [h3, if_false]
          exact hk.2.2
    · rw [if_neg h2]
      exact ⟨hv, fun e => absurd e h2, hk⟩

theorem okStack_foldl (rooted : Bool) (segs : List Str) (kept : List Str)
    (hk : okStack rooted kept) (hs : ∀ s ∈ segs, '/' ∉ s) :
    okStack rooted (segs.foldl (cleanStep rooted) kept) := by
  induction segs generalizing kept with
  | nil => exact hk
  | cons s segs ih =>
    exact ih _ (okStack_cleanStep rooted kept s hk (hs s (List.mem_cons_self _ _)))
      (fun x hx => hs x (List.mem_cons_of_mem _ hx))

theorem okStack_cleanElems (path : Str) : okStack (isRooted path) (cleanElems path).reverse := by
  unfold cleanElems
  rw [List.reverse_reverse]
  exact okStack_foldl _ _ [] trivial (strings.not_mem_of_mem_split path '/')

/-- Cleaning the elements of a kept stack again keeps them all. -/
theorem foldl_cleanStep_reverse (rooted : Bool) (kept : List Str) (hk : okStack rooted kept) :
    kept.reverse.foldl (cleanStep rooted) [] = kept := by
  induction kept with
  | nil => rfl
  | cons x rest ih =>
    rw [List.reverse_cons, List.foldl_append, ih hk.2.2]
    simp only [List.foldl_cons, List.foldl_nil]
    obtain ⟨⟨hx1, hx2, _⟩, hdots, _⟩ := hk
    unfold cleanStep
    rw [if_neg (by simp [hx1, hx2])]
    by_cases h2 : x = ['.', '.']
    · rw [if_pos h2]
      obtain ⟨hr, hall⟩ := hdots h2
      cases rest with
      | nil => simp [hr, h2]
      | cons top below =>
        have := hall top (List.mem_cons_self _ _)
        simp [this, hr, h2]
    · rw [if_neg h2]

theorem isRooted_render (rooted : Bool) (es : List Str) (h : okStack rooted es.reverse) :
    isRooted (render rooted es) = rooted := by
  cases rooted with
  | true => simp [render, isRooted]
  | false =>
    cases es with
    | nil => simp [render, isRooted]
    | cons e es =>
      have hv : validElem e := by
        have : okStack false ((e :: es).reverse) := h
        clear h
        rw [List.reverse_cons] at this
        generalize es.reverse = l at this
        induction l with
        | nil => exact this.1
        | cons y l ih => exact ih this.2.2
      obtain ⟨h1, _, h3⟩ := hv
      cases e with
      | nil => exact absurd rfl h1
      | cons c e =>
        have hc : c ≠ '/' := fun e' => h3 (by simp [e'])
        cases es with
        | nil => simp [render, isRooted, strings.Join, hc]
        | cons e2 es => simp [render, isRooted, strings.Join, hc]

theorem okStack_sep (rooted : Bool) (kept : List Str) (h : okStack rooted kept) :
    ∀ e ∈ kept, '/' ∉ e := by
  induction kept with
  | nil => simp
  | cons x rest ih =>
    intro e he
    rcases List.mem_cons.1 he with rfl | he
    · exact h.1.2.2
    · exact ih h.2.2 e he

/-- The elements of a rendered clean path are the elements it was rendered from. -/
theorem cleanElems_render (rooted : Bool) (es : List Str) (h : okStack rooted es.reverse) :
    cleanElems (render rooted es) = es := by
  have hsep : ∀ e ∈ es, '/' ∉ e := fun e he =>
    okStack_sep rooted _ h e (List.mem_reverse.2 he)
  have hr := isRooted_render rooted es h
  unfold isRooted at hr
  unfold cleanElems
  rw [hr]
  have key := foldl_cleanStep_reverse rooted es.reverse h
  rw [List.reverse_reverse] at key
  cases rooted with
  | true =>
    by_cases hes : es = []
    · subst hes; simp [render, strings.Join, strings.Split, cleanStep]
    · simp only [render, if_true]
      rw [strings.split_cons_sep, strings.split_join es '/' hes hsep]
      simp only [List.foldl_cons]
      have : cleanStep true [] [] = [] := by simp [cleanStep]
      rw [this, key, List.reverse_reverse]
  | false =>
    by_cases hes : es = []
    · subst hes; simp [render, strings.Join, strings.Split, cleanStep]
    · simp only [render, hes, if_false, Bool.false_eq_true]
      rw [strings.split_join es '/' hes hsep, key, List.reverse_reverse]

/-- Elements that are neither empty, `.` nor `..` are pushed as they come. -/
theorem foldl_cleanStep_plain (rooted : Bool) (segs kept : List Str)
    (h : ∀ s ∈ segs, s ≠ ['.', '.']) :
    segs.foldl (cleanStep rooted) kept =
      (segs.filter (fun s => decide (¬ (s = [] ∨ s = ['.'])))).reverse ++ kept := by
  induction segs generalizing kept with
  | nil => rfl
  | cons s segs ih =>
    have h2 : s ≠ ['.', '.'] := h s (List.mem_cons_self _ _)
    rw [List.foldl_cons, ih _ (fun x hx => h x (List.mem_cons_of_mem _ hx))]
    by_cases h1 : s = [] ∨ s = ['.']
    · have e1 : cleanStep rooted kept s = kept := by simp [cleanStep, h1]
      rw [e1, List.filter_cons_of_neg (by simp only [decide_not, Bool.not_eq_true', decide_eq_false_iff_not, not_not]; exact h1)]
    · have e1 : cleanStep rooted kept s = s :: kept := by simp [cleanStep, h1, h2]
      rw [e1, List.filter_cons_of_pos (by simp only [decide_not, Bool.not_eq_true', decide_eq_false_iff_not]; exact h1), List.reverse_cons,
        List.append_assoc]
      rfl

end filepath
/-! ## Destinations below the target directory -/

namespace filepath

theorem isRooted_append (a b : Str) (h : a ≠ []) : isRooted (a ++ b) = isRooted a := by
  cases a with
  | nil => exact absurd rfl h
  | cons c a => rfl

/-- Joining a path without `..` elements under a directory appends its real
elements to those of the directory. -/
theorem cleanElems_join (a b : Str) (ha : a ≠ [])
    (hb : ∀ s ∈ strings.Split b '/', s ≠ ['.', '.']) :
    cleanElems (a ++ '/' :: b) = cleanElems a ++
      (strings.Split b '/').filter (fun s => decide (¬ (s = [] ∨ s = ['.']))) := by
  have hr : (a ++ '/' :: b).head? = a.head? := by
    cases a with
    | nil => exact absurd rfl ha
    | cons c a => rfl
  unfold cleanElems
  rw [hr, strings.split_append_sep, List.foldl_append, foldl_cleanStep_plain _ _ _ hb,
    List.reverse_append, List.reverse_reverse]

theorem strictlyInside_render (dir : Str) (extras : List Str)
    (hok : okStack (isRooted dir) (cleanElems dir ++ extras).reverse)
    (hne : extras ≠ []) (hdots : ∀ s ∈ extras, s ≠ ['.', '.']) :
    strictlyInside dir (render (isRooted dir) (cleanElems dir ++ extras)) = true := by
  unfold strictlyInside
  simp only [cleanElems_render _ _ hok, isRooted_render _ _ hok]
  have hlen : 0 < extras.length := List.length_pos.2 hne
  simp only [beq_self_eq_true, Bool.true_and, List.length_append, List.drop_left,
    Bool.and_eq_true, decide_eq_true_eq, Bool.not_eq_true', List.isPrefixOf_iff_prefix]
  refine ⟨⟨List.prefix_append _ _, by omega⟩, ?_⟩
  cases hc : extras.contains ['.', '.'] with
  | false => rfl
  | true =>
    rw [List.contains_iff_exists_mem_beq] at hc
    obtain ⟨s, hs, he⟩ := hc
    exact absurd (by simpa using he) (Ne.symm (hdots s hs))

theorem okStack_append_singleton (rooted : Bool) (es : List Str) (x y : Str)
    (h : okStack rooted (es ++ [x]).reverse) (hy : validElem y) (hy2 : y ≠ ['.', '.']) :
    okStack rooted (es ++ [y]).reverse := by
  rw [List.reverse_append] at h ⊢
  exact ⟨hy, fun e => absurd e hy2, h.2.2⟩

theorem join_cons_of_ne_nil (e : Str) (es : List Str) (sep : Str) (h : es ≠ []) :
    strings.Join (e :: es) sep = e ++ sep ++ strings.Join es sep := by
  cases es with
  | nil => exact absurd rfl h
  | cons e2 es => rfl

theorem join_snoc (init : List Str) (last : Str) :
    strings.Join (init ++ [last]) ['/'] =
      init.foldr (fun e acc => e ++ '/' :: acc) [] ++ last := by
  induction init with
  | nil => rfl
  | cons e init ih =>
    rw [List.cons_append, join_cons_of_ne_nil _ _ _ (by simp), ih]
    simp

theorem render_snoc (rooted : Bool) (init : List Str) (last : Str) :
    render rooted (init ++ [last]) = dirPart rooted init ++ last := by
  unfold render dirPart
  cases rooted with
  | true => simp [join_snoc]
  | false => simp [join_snoc]

theorem dirPart_shape (rooted : Bool) (init : List Str) :
    dirPart rooted init = [] ∨ ∃ pre, dirPart rooted init = pre ++ ['/'] := by
  unfold dirPart
  induction init using List.reverseRecOn with
  | nil =>
    cases rooted
    · left; rfl
    · right; exact ⟨[], rfl⟩
  | append_singleton init e _ =>
    right
    refine ⟨(if rooted then ['/'] else []) ++ init.foldr (fun e acc => e ++ '/' :: acc) e, ?_⟩
    rw [List.foldr_append]
    simp only [List.foldr_cons, List.foldr_nil]
    have : ∀ (l : List Str) (z : Str),
        l.foldr (fun e acc => e ++ '/' :: acc) (z ++ ['/']) =
          l.foldr (fun e acc => e ++ '/' :: acc) z ++ ['/'] := by
      intro l z
      induction l with
      | nil => rfl
      | cons x l ih => simp [ih]
    have h2 := this init e
    simp only [List.append_assoc] at h2 ⊢
    rw [← h2]

theorem extScan_append (rev rest suffix : Str) (h : '/' ∉ rev)
    (hrest : rest = [] ∨ rest.head? = some '/') :
    extScan (rev ++ rest) suffix = extScan rev suffix := by
  induction rev generalizing suffix with
  | nil =>
    rcases hrest with rfl | hh
    · rfl
    · cases rest with
      | nil => rfl
      | cons c rest =>
        simp only [List.head?_cons, Option.some.injEq] at hh
        subst hh
        simp [extScan]
  | cons c rev ih =>
    have hc : c ≠ '/' := fun e => h (by simp [e])
    have hrev : '/' ∉ rev := fun e => h (List.mem_cons_of_mem _ e)
    rw [List.cons_append]
    unfold extScan
    simp only [hc, if_false]
    by_cases h2 : c = '.'
    · simp [h2]
    · simp only [h2, if_false]
      exact ih _ hrev

theorem ext_append (dir last : Str) (hd : dir = [] ∨ ∃ pre, dir = pre ++ ['/'])
    (hl : '/' ∉ last) : Ext (dir ++ last) = Ext last := by
  unfold Ext
  rw [List.reverse_append]
  apply extScan_append
  · simpa using hl
  · rcases hd with rfl | ⟨pre, rfl⟩
    · left; rfl
    · right; simp

end filepath

theorem fmt_d_no_sep (n : Int) : '/' ∉ fmt.d n := by
  have key : ∀ m : Nat, '/' ∉ Nat.toDigits 10 m := by
    intro m hm
    have := (toDigits_spec m).2.1 _ hm
    revert this
    decide
  unfold fmt.d
  split_ifs
  · intro h
    rcases List.mem_cons.1 h with e | e
    · revert e; decide
    · exact key _ e
  · exact key _

/-- The collision rename only rewrites the last element of a path, to a name
that contains `_`. -/
theorem versionedTarget_last (dir last : Str) (hd : dir = [] ∨ ∃ pre, dir = pre ++ ['/'])
    (hl : '/' ∉ last) :
    ∃ last2, versionedTarget (dir ++ last) = dir ++ last2 ∧ '/' ∉ last2 ∧ '_' ∈ last2 := by
  have hext : filepath.Ext (dir ++ last) = filepath.Ext last := filepath.ext_append dir last hd hl
  have hsplit := filepath.trimSuffix_ext last
  generalize strings.TrimSuffix last (filepath.Ext last) = base at hsplit
  have hbase : '/' ∉ base := fun e => hl (by rw [← hsplit]; exact List.mem_append_left _ e)
  have hextsep : '/' ∉ filepath.Ext last :=
    fun e => hl (by rw [← hsplit]; exact List.mem_append_right _ e)
  have htrim : strings.TrimSuffix (dir ++ last) (filepath.Ext last) = dir ++ base := by
    generalize filepath.Ext last = ext at hsplit
    subst hsplit
    rw [← List.append_assoc]
    exact strings.trimSuffix_append _ _
  unfold versionedTarget
  simp only [hext, htrim]
  cases strconv.Atoi ((strings.Split (dir ++ base) '_').getLast?.getD []) with
  | none =>
    refine ⟨base ++ ['_', '1'] ++ filepath.Ext last, by simp, ?_, by simp⟩
    simp only [List.mem_append, List.mem_cons, List.mem_singleton, not_or]
    simp [hbase, hextsep]
  | some n =>
    simp only
    have hfmt := fmt_d_no_sep (wrapInt (n + 1))
    rcases strings.trimSuffix_cases (dir ++ base) ('_' :: fmt.d n) with ⟨h1, _⟩ | h1
    · rw [h1]
      refine ⟨base ++ '_' :: fmt.d (wrapInt (n + 1)) ++ filepath.Ext last, by simp, ?_, by simp⟩
      simp only [List.mem_append, List.mem_cons, not_or]
      simp [hbase, hextsep, hfmt]
    · generalize strings.TrimSuffix (dir ++ base) ('_' :: fmt.d n) = fileN at h1 ⊢
      rcases List.append_eq_append_iff.1 h1 with ⟨a, ha1, ha2⟩ | ⟨c, hc1, hc2⟩
      · refine ⟨a ++ '_' :: fmt.d (wrapInt (n + 1)) ++ filepath.Ext last, by simp [ha1], ?_,
          by simp⟩
        have hasep : '/' ∉ a := fun e => hbase (by rw [ha2]; exact List.mem_append_left _ e)
        simp only [List.mem_append, List.mem_cons, not_or]
        simp [hasep, hextsep, hfmt]
      · have hcnil : c = [] := by
          by_contra hne
          rcases hd with rfl | ⟨pre, rfl⟩
          · simp at hc1
            exact hne hc1.2
          · have hrev := congrArg List.reverse hc1
            simp only [List.reverse_append, List.reverse_cons, List.reverse_nil,
              List.nil_append, List.singleton_append] at hrev
            have hcmem : '/' ∈ c := by
              cases hcr : c.reverse with
              | nil => exact absurd (List.reverse_eq_nil_iff.1 hcr) hne
              | cons x xs =>
                rw [hcr] at hrev
                simp only [List.cons_append, List.cons.injEq] at hrev
                rw [← List.mem_reverse, hcr, ← hrev.1]
                exact List.mem_cons_self _ _
            have hmem : '/' ∈ '_' :: fmt.d n := by
              rw [hc2]
              exact List.mem_append_left _ hcmem
            rcases List.mem_cons.1 hmem with e | e
            · revert e; decide
            · exact fmt_d_no_sep n e
        subst hcnil
        simp only [List.append_nil] at hc1
        refine ⟨'_' :: fmt.d (wrapInt (n + 1)) ++ filepath.Ext last, by simp [hc1], ?_, by simp⟩
        simp only [List.mem_append, List.mem_cons, not_or]
        simp [hextsep, hfmt]

/-! ## Claims about `unTarGz` -/

set_option maxRecDepth 8000

theorem create_files (fs fs2 : FS) (path payload : Str) (h : os.Create fs path payload = some fs2)
    (p : Str) : fs2.files p = if p = path then some payload else fs.files p := by
  unfold os.Create at h
  split_ifs at h
  cases h
  rfl

theorem create_dirs (fs fs2 : FS) (path payload : Str) (h : os.Create fs path payload = some fs2) :
    fs2.dirs = fs.dirs := by
  unfold os.Create at h
  split_ifs at h
  cases h
  rfl

theorem mkdirAll_files (fs fs2 : FS) (path : Str) (h : os.MkdirAll fs path = some fs2) :
    fs2.files = fs.files := by
  unfold os.MkdirAll at h
  split_ifs at h
  cases h
  rfl

theorem mkdirAll_dirs (fs fs2 : FS) (path : Str) (h : os.MkdirAll fs path = some fs2)
    (p : Str) : fs2.dirs p = (decide (p ∈ os.dirChain path) || fs.dirs p) := by
  unfold os.MkdirAll at h
  split_ifs at h
  cases h
  rfl

/-- Files change only at the path handed to `os.Create`. -/
theorem unTarGzEntry_files (targetPath : Str) (st : ExtractState) (e : TarEntry) (p : Str)
    (hp : p ≠ createTarget st.fs (entryTarget targetPath st e)) :
    (unTarGzEntry targetPath st e).1.fs.files p = st.fs.files p := by
  unfold unTarGzEntry
  split_ifs
  · rfl
  · cases e.header.Typeflag with
    | TypeDir =>
      simp only
      cases h : os.MkdirAll st.fs (entryTarget targetPath st e) with
      | none => rfl
      | some fs2 => simp only; rw [mkdirAll_files _ _ _ h]
    | TypeReg =>
      simp only
      cases h : os.Create st.fs (createTarget st.fs (entryTarget targetPath st e)) e.payload with
      | none => rfl
      | some fs2 => simp only; rw [create_files _ _ _ _ h, if_neg hp]
    | other => rfl

/-- Directories appear only on the chain from the root to the destination. -/
theorem unTarGzEntry_dirs (targetPath : Str) (st : ExtractState) (e : TarEntry) (p : Str)
    (hp : p ∉ os.dirChain (entryTarget targetPath st e)) :
    (unTarGzEntry targetPath st e).1.fs.dirs p = st.fs.dirs p := by
  unfold unTarGzEntry
  split_ifs
  · rfl
  · cases e.header.Typeflag with
    | TypeDir =>
      simp only
      cases h : os.MkdirAll st.fs (entryTarget targetPath st e) with
      | none => rfl
      | some fs2 => simp only; rw [mkdirAll_dirs _ _ _ h]; simp [hp]
    | TypeReg =>
      simp only
      cases h : os.Create st.fs (createTarget st.fs (entryTarget targetPath st e)) e.payload with
      | none => rfl
      | some fs2 => simp only; rw [create_dirs _ _ _ _ h]
    | other => rfl

/-- C1: on the archive with the directory of pod `p1` and three regular entries
`gather/namespaces/ns1/pods/p1/p1.yaml`, extracted into the empty directory
`/space`, `unTarGz` returns `nil` and leaves `p1.yaml` with the first payload and
`p1_1.yaml` with the third; the second payload is gone and there is no
`p1_2.yaml`. -/
theorem unTarGz_third_collision_overwrites :
    (unTarGz threeCollisions "/space".toList (emptyTarget "/space".toList)).2 = .ok ∧
    (unTarGz threeCollisions "/space".toList (emptyTarget "/space".toList)).1.files
      "/space/namespaces/ns1/pods/p1/p1.yaml".toList = some "first".toList ∧
    (unTarGz threeCollisions "/space".toList (emptyTarget "/space".toList)).1.files
      "/space/namespaces/ns1/pods/p1/p1_1.yaml".toList = some "third".toList ∧
    (unTarGz threeCollisions "/space".toList (emptyTarget "/space".toList)).1.files
      "/space/namespaces/ns1/pods/p1/p1_2.yaml".toList = none := by
  refine ⟨?_, ?_, ?_, ?_⟩ <;> decide

/-- C2 (as stated, refuted): the single regular entry
`namespaces/../../etc/passwd` qualifies, and extracting it into `/space` returns
`nil` having written `/etc/passwd`, which is not inside `/space`; and the single
regular entry `xnamespaces/y`, no segment of which is a sentinel, qualifies and
is written to `/space_1`, which is not inside `/space` either. -/
theorem unTarGz_escapes_target :
    qualifies "namespaces/../../etc/passwd".toList = true ∧
    (unTarGz escapingArchive "/space".toList spaceAndEtc).2 = .ok ∧
    (unTarGz escapingArchive "/space".toList spaceAndEtc).1.files "/etc/passwd".toList
      = some "root".toList ∧
    strictlyInside "/space".toList "/etc/passwd".toList = false ∧
    qualifies "xnamespaces/y".toList = true ∧
    (unTarGz longSegmentArchive "/space".toList spaceAndEtc).2 = .ok ∧
    (unTarGz longSegmentArchive "/space".toList spaceAndEtc).1.files "/space_1".toList
      = some "data".toList ∧
    strictlyInside "/space".toList "/space_1".toList = false := by
  refine ⟨?_, ?_, ?_, ?_, ?_, ?_, ?_, ?_⟩ <;> decide

/-- The shape of a destination joined from a trimmed name with a real element
and without `..`: the elements of the target directory followed by at least one
further element, none of them `..`. -/
theorem join_shape (targetPath working : Str) (ht : targetPath ≠ [])
    (hdots : ∀ s ∈ strings.Split working '/', s ≠ ['.', '.'])
    (hreal : ∃ s ∈ strings.Split working '/', s ≠ [] ∧ s ≠ ['.']) :
    ∃ extras : List Str, extras ≠ [] ∧ (∀ s ∈ extras, s ≠ ['.', '.']) ∧
      filepath.okStack (filepath.isRooted targetPath)
        (filepath.cleanElems targetPath ++ extras).reverse ∧
      filepath.Join targetPath working =
        filepath.render (filepath.isRooted targetPath)
          (filepath.cleanElems targetPath ++ extras) := by
  have hjoin : filepath.Join targetPath working = filepath.Clean (targetPath ++ '/' :: working) := by
    simp [filepath.Join, ht]
  have helems := filepath.cleanElems_join targetPath working ht hdots
  have hroot := filepath.isRooted_append targetPath ('/' :: working) ht
  have hok := filepath.okStack_cleanElems (targetPath ++ '/' :: working)
  rw [helems, hroot] at hok
  refine ⟨_, ?_, ?_, hok, ?_⟩
  · obtain ⟨s, hs, h1, h2⟩ := hreal
    intro hnil
    have : s ∈ (strings.Split working '/').filter
        (fun s => decide (¬ (s = [] ∨ s = ['.']))) :=
      List.mem_filter.2 ⟨hs, by simp [h1, h2]⟩
    rw [hnil] at this
    exact absurd this (List.not_mem_nil _)
  · intro s hs
    exact hdots s (List.mem_filter.1 hs).1
  · rw [hjoin, filepath.Clean, helems, hroot]

/-- The joined destination and its collision rename, for a trimmed name with a
real element and without `..`. -/
theorem target_inside (targetPath working : Str) (fs : FS) (ht : targetPath ≠ [])
    (hdots : ∀ s ∈ strings.Split working '/', s ≠ ['.', '.'])
    (hreal : ∃ s ∈ strings.Split working '/', s ≠ [] ∧ s ≠ ['.']) :
    strictlyInside targetPath (filepath.Join targetPath working) = true ∧
    strictlyInside targetPath (createTarget fs (filepath.Join targetPath working)) = true := by
  obtain ⟨extras, hexne, hexdots, hok, hclean⟩ := join_shape targetPath working ht hdots hreal
  refine ⟨by rw [hclean]; exact filepath.strictlyInside_render _ _ hok hexne hexdots, ?_⟩
  unfold createTarget
  split_ifs
  · rw [hclean]
    obtain ⟨ex0, last, rfl⟩ : ∃ ex0 last, extras = ex0 ++ [last] :=
      ⟨extras.dropLast, extras.getLast hexne, (List.dropLast_append_getLast hexne).symm⟩
    rw [← List.append_assoc] at hok ⊢
    have hlast : '/' ∉ last := by
      have := hok
      rw [List.reverse_append] at this
      exact this.1.2.2
    rw [filepath.render_snoc]
    obtain ⟨last2, hv, hsep, hus⟩ := versionedTarget_last _ last
      (filepath.dirPart_shape _ _) hlast
    rw [hv, ← filepath.render_snoc, List.append_assoc]
    have hvalid : filepath.validElem last2 := by
      refine ⟨?_, ?_, hsep⟩
      · rintro rfl; simp at hus
      · rintro rfl; revert hus; decide
    have hnd : last2 ≠ ['.', '.'] := by rintro rfl; revert hus; decide
    apply filepath.strictlyInside_render
    · rw [← List.append_assoc]
      exact filepath.okStack_append_singleton _ _ last last2 hok hvalid hnd
    · simp
    · intro s hs
      rcases List.mem_append.1 hs with h | h
      · exact hexdots s (List.mem_append_left _ h)
      · simp only [List.mem_singleton] at h
        rw [h]; exact hnd
  · rw [hclean]; exact filepath.strictlyInside_render _ _ hok hexne hexdots

theorem okStack_of_append (rooted : Bool) (a b : List Str)
    (h : filepath.okStack rooted (a ++ b)) : filepath.okStack rooted b := by
  induction a with
  | nil => exact h
  | cons x a ih => exact ih h.2.2

/-- Every directory on the chain to such a destination is on the chain to the
target directory or strictly inside it. -/
theorem dirChain_inside (targetPath working : Str) (ht : targetPath ≠ [])
    (hdots : ∀ s ∈ strings.Split working '/', s ≠ ['.', '.'])
    (hreal : ∃ s ∈ strings.Split working '/', s ≠ [] ∧ s ≠ ['.']) :
    ∀ p ∈ os.dirChain (filepath.Join targetPath working),
      p ∈ os.dirChain targetPath ∨ strictlyInside targetPath p = true := by
  obtain ⟨extras, hexne, hexdots, hok, hclean⟩ := join_shape targetPath working ht hdots hreal
  intro p hp
  unfold os.dirChain at hp
  rw [hclean, filepath.cleanElems_render _ _ hok, filepath.isRooted_render _ _ hok,
    List.inits_append, List.map_append, List.mem_append] at hp
  rcases hp with hp | hp
  · exact Or.inl hp
  · right
    obtain ⟨l, hl, rfl⟩ := List.mem_map.1 hp
    obtain ⟨ex, hex, rfl⟩ := List.mem_map.1 hl
    have hexmem : ex ∈ extras.inits := List.mem_of_mem_tail hex
    obtain ⟨rest, hrest⟩ := (List.mem_inits _ _).1 hexmem
    have hexne2 : ex ≠ [] := by
      rintro rfl
      cases extras with
      | nil => exact hexne rfl
      | cons x xs =>
        rw [List.inits_cons] at hex
        simp only [List.tail_cons, List.mem_map] at hex
        obtain ⟨t, _, ht2⟩ := hex
        exact absurd ht2 (by simp)
    apply filepath.strictlyInside_render _ _ _ hexne2
    · intro s hs
      exact hexdots s (by rw [← hrest]; exact List.mem_append_left _ hs)
    · apply okStack_of_append _ rest.reverse
      rw [← List.reverse_append, List.append_assoc, hrest]
      exact hok

/-- C2 (amended): for a non-empty target directory and an entry whose name, once
the prefix in force is trimmed, has no `..` segment and at least one segment
other than the empty one and `.`, the destination `newTarget` and the path handed
to `os.Create` (collision rename included) lie strictly inside the target
directory; so does every path whose file contents the entry changes, and every
directory the entry creates is inside the target directory or on the chain from
the root to it. -/
theorem unTarGz_target_inside (targetPath : Str) (st : ExtractState) (e : TarEntry)
    (ht : targetPath ≠ [])
    (hdots : ∀ s ∈ strings.Split (entryWorkingName st e) '/', s ≠ ['.', '.'])
    (hreal : ∃ s ∈ strings.Split (entryWorkingName st e) '/', s ≠ [] ∧ s ≠ ['.']) :
    strictlyInside targetPath (entryTarget targetPath st e) = true ∧
    strictlyInside targetPath (createTarget st.fs (entryTarget targetPath st e)) = true ∧
    (∀ p, (unTarGzEntry targetPath st e).1.fs.files p ≠ st.fs.files p →
      strictlyInside targetPath p = true) ∧
    (∀ p, (unTarGzEntry targetPath st e).1.fs.dirs p ≠ st.fs.dirs p →
      p ∈ os.dirChain targetPath ∨ strictlyInside targetPath p = true) := by
  obtain ⟨h1, h2⟩ := target_inside targetPath _ st.fs ht hdots hreal
  refine ⟨h1, h2, ?_, ?_⟩
  · intro p hp
    by_cases hpe : p = createTarget st.fs (entryTarget targetPath st e)
    · rw [hpe]; exact h2
    · exact absurd (unTarGzEntry_files targetPath st e p hpe) hp
  · intro p hp
    by_cases hpe : p ∈ os.dirChain (entryTarget targetPath st e)
    · exact dirChain_inside targetPath _ ht hdots hreal p hpe
    · exact absurd (unTarGzEntry_dirs targetPath st e p hpe) hp

/-- Witness for C2 (amended): the file `p1.yaml` of the collision example, met
when it already exists under `/space`. -/
theorem unTarGz_target_inside_witness :
    "/space".toList ≠ [] ∧
    (∀ s ∈ strings.Split (entryWorkingName ⟨onePodFile, []⟩
      ⟨⟨"gather/namespaces/ns1/pods/p1/p1.yaml".toList, .TypeReg⟩, "second".toList⟩) '/',
      s ≠ ['.', '.']) ∧
    (∃ s ∈ strings.Split (entryWorkingName ⟨onePodFile, []⟩
      ⟨⟨"gather/namespaces/ns1/pods/p1/p1.yaml".toList, .TypeReg⟩, "second".toList⟩) '/',
      s ≠ [] ∧ s ≠ ['.']) ∧
    strictlyInside "/space".toList (entryTarget "/space".toList ⟨onePodFile, []⟩
      ⟨⟨"gather/namespaces/ns1/pods/p1/p1.yaml".toList, .TypeReg⟩, "second".toList⟩) = true ∧
    strictlyInside "/space".toList (createTarget onePodFile
      (entryTarget "/space".toList ⟨onePodFile, []⟩
        ⟨⟨"gather/namespaces/ns1/pods/p1/p1.yaml".toList, .TypeReg⟩, "second".toList⟩))
      = true :=
  have h := unTarGz_target_inside "/space".toList ⟨onePodFile, []⟩
    ⟨⟨"gather/namespaces/ns1/pods/p1/p1.yaml".toList, .TypeReg⟩, "second".toList⟩
    (by decide) (by decide) (by decide)
  ⟨by decide, by decide, by decide, h.1, h.2.1⟩

/-- C3: when the destination of a qualifying regular-file entry already exists,
the path `unTarGz` hands to `os.Create` differs from it; if the file can be
created the payload goes to that other path, and whatever the outcome of the
entry the file at the destination keeps its contents. -/
theorem unTarGz_collision_keeps_file (targetPath : Str) (st : ExtractState) (e : TarEntry)
    (hq : qualifies e.header.Name = true) (hreg : e.header.Typeflag = .TypeReg)
    (hex : os.Stat st.fs (entryTarget targetPath st e) = true) :
    createTarget st.fs (entryTarget targetPath st e) ≠ entryTarget targetPath st e ∧
    (unTarGzEntry targetPath st e).1.fs.files (entryTarget targetPath st e) =
      st.fs.files (entryTarget targetPath st e) ∧
    ((unTarGzEntry targetPath st e).2 = false →
      (unTarGzEntry targetPath st e).1.fs.files
        (createTarget st.fs (entryTarget targetPath st e)) = some e.payload) := by
  have hne : createTarget st.fs (entryTarget targetPath st e) ≠ entryTarget targetPath st e := by
    unfold createTarget
    rw [if_pos hex]
    exact versionedTarget_ne _
  refine ⟨hne, unTarGzEntry_files targetPath st e _ (Ne.symm hne), ?_⟩
  unfold unTarGzEntry
  simp only [hq, hreg, Bool.not_true, Bool.false_eq_true, if_false]
  cases h : os.Create st.fs (createTarget st.fs (entryTarget targetPath st e)) e.payload with
  | none => simp
  | some fs2 =>
    intro _
    simp only
    rw [create_files _ _ _ _ h, if_pos rfl]

/-- Witness for C3: a second `p1.yaml` arriving when the first is on disk. -/
theorem unTarGz_collision_keeps_file_witness :
    qualifies "gather/namespaces/ns1/pods/p1/p1.yaml".toList = true ∧
    os.Stat onePodFile (entryTarget "/space".toList ⟨onePodFile, []⟩
      ⟨⟨"gather/namespaces/ns1/pods/p1/p1.yaml".toList, .TypeReg⟩, "second".toList⟩) = true ∧
    createTarget onePodFile (entryTarget "/space".toList ⟨onePodFile, []⟩
        ⟨⟨"gather/namespaces/ns1/pods/p1/p1.yaml".toList, .TypeReg⟩, "second".toList⟩) ≠
      entryTarget "/space".toList ⟨onePodFile, []⟩
        ⟨⟨"gather/namespaces/ns1/pods/p1/p1.yaml".toList, .TypeReg⟩, "second".toList⟩ ∧
    (unTarGzEntry "/space".toList ⟨onePodFile, []⟩
        ⟨⟨"gather/namespaces/ns1/pods/p1/p1.yaml".toList, .TypeReg⟩, "second".toList⟩).1.fs.files
        (entryTarget "/space".toList ⟨onePodFile, []⟩
          ⟨⟨"gather/namespaces/ns1/pods/p1/p1.yaml".toList, .TypeReg⟩, "second".toList⟩) =
      some "first".toList ∧
    (unTarGzEntry "/space".toList ⟨onePodFile, []⟩
        ⟨⟨"gather/namespaces/ns1/pods/p1/p1.yaml".toList, .TypeReg⟩, "second".toList⟩).1.fs.files
        "/space/namespaces/ns1/pods/p1/p1_1.yaml".toList = some "second".toList :=
  have h := unTarGz_collision_keeps_file "/space".toList ⟨onePodFile, []⟩
    ⟨⟨"gather/namespaces/ns1/pods/p1/p1.yaml".toList, .TypeReg⟩, "second".toList⟩
    (by decide) rfl (by decide)
  ⟨by decide, by decide, h.1, h.2.1.trans (by decide), (h.2.2 (by decide)).symm ▸ by decide⟩

theorem unTarGzEntry_prefixPath (targetPath : Str) (st : ExtractState) (e : TarEntry) :
    (unTarGzEntry targetPath st e).1.namespacePrefixPath =
      if qualifies e.header.Name then updatePrefix st.namespacePrefixPath e.header.Name
      else st.namespacePrefixPath := by
  unfold unTarGzEntry
  cases hq : qualifies e.header.Name with
  | false => simp
  | true =>
    simp only [Bool.not_true, Bool.false_eq_true, if_false, if_true]
    cases e.header.Typeflag with
    | TypeDir => simp only; split <;> rfl
    | TypeReg => simp only; split <;> rfl
    | other => rfl

theorem updatePrefix_of_ne_nil (namespacePrefixPath : List Str) (name : Str)
    (h : namespacePrefixPath ≠ []) : updatePrefix namespacePrefixPath name = namespacePrefixPath := by
  unfold updatePrefix
  rw [if_neg]
  simpa using h

/-- C9 (as stated, refuted): both entries of `mixedRoots` qualify; the prefix
computed from the first is empty and is what the loop holds after it, yet after
the second entry the loop holds the prefix `gather`, which was applied to that
entry: its directory was created as `/space/namespaces/b`, not as
`/space/gather/namespaces/b`. -/
theorem unTarGz_prefix_recomputed :
    qualifies "namespaces/a/".toList = true ∧
    qualifies "gather/namespaces/b/".toList = true ∧
    prefixLoop (strings.Split "namespaces/a/".toList '/') [] = [] ∧
    (unTarGzLoop "/space".toList true ⟨emptyTarget "/space".toList, []⟩
      (mixedRoots.take 1)).1.namespacePrefixPath = [] ∧
    (unTarGzLoop "/space".toList true ⟨emptyTarget "/space".toList, []⟩
      mixedRoots).1.namespacePrefixPath = ["gather".toList] ∧
    (unTarGzLoop "/space".toList true ⟨emptyTarget "/space".toList, []⟩ mixedRoots).2 = .ok ∧
    (unTarGzLoop "/space".toList true ⟨emptyTarget "/space".toList, []⟩ mixedRoots).1.fs.dirs
      "/space/namespaces/b".toList = true ∧
    (unTarGzLoop "/space".toList true ⟨emptyTarget "/space".toList, []⟩ mixedRoots).1.fs.dirs
      "/space/gather/namespaces/b".toList = false := by
  refine ⟨?_, ?_, ?_, ?_, ?_, ?_, ?_, ?_⟩ <;> decide

/-- C9 (amended): the prefix a qualifying entry leaves in `namespacePrefixPath` is
the one applied to it; while `namespacePrefixPath` is empty, each qualifying
entry computes it afresh from its own name (the segments before its first
sentinel segment); an entry that does not qualify leaves it alone; and once it
is non-empty it stays the same to the end of the pass. -/
theorem unTarGz_prefix_fixed_once_nonempty (targetPath : Str) (endsWithEOF : Bool)
    (st : ExtractState) (e : TarEntry) (es : List TarEntry) :
    (st.namespacePrefixPath ≠ [] →
      (unTarGzLoop targetPath endsWithEOF st es).1.namespacePrefixPath =
        st.namespacePrefixPath) ∧
    (st.namespacePrefixPath = [] → qualifies e.header.Name = true →
      (unTarGzEntry targetPath st e).1.namespacePrefixPath =
        prefixLoop (strings.Split e.header.Name '/') []) ∧
    (qualifies e.header.Name = false →
      (unTarGzEntry targetPath st e).1.namespacePrefixPath = st.namespacePrefixPath) ∧
    (qualifies e.header.Name = true →
      entryTarget targetPath st e =
        joinTarget targetPath (unTarGzEntry targetPath st e).1.namespacePrefixPath
          e.header.Name) := by
  refine ⟨?_, ?_, ?_, ?_⟩
  · intro h
    induction es generalizing st with
    | nil => rfl
    | cons e1 es ih =>
      have hstep : (unTarGzEntry targetPath st e1).1.namespacePrefixPath =
          st.namespacePrefixPath := by
        rw [unTarGzEntry_prefixPath]
        split_ifs
        · exact updatePrefix_of_ne_nil _ _ h
        · rfl
      unfold unTarGzLoop
      rcases hr : unTarGzEntry targetPath st e1 with ⟨st1, b⟩
      rw [hr] at hstep
      cases b with
      | true => exact hstep
      | false =>
        simp only
        rw [ih st1 (by rw [hstep]; exact h)]
        exact hstep
  · intro h hq
    rw [unTarGzEntry_prefixPath, if_pos hq, h]
    rfl
  · intro hq
    rw [unTarGzEntry_prefixPath, hq]
    rfl
  · intro hq
    rw [unTarGzEntry_prefixPath, if_pos hq]
    rfl

/-- Witness for C9 (amended): from the prefix `gather` on, from the empty prefix,
and for a name outside the two trees. -/
theorem unTarGz_prefix_fixed_once_nonempty_witness :
    ["gather".toList] ≠ ([] : List Str) ∧
    (unTarGzLoop "/space".toList true ⟨emptyTarget "/space".toList, ["gather".toList]⟩
      mixedRoots).1.namespacePrefixPath = ["gather".toList] ∧
    qualifies "gather/namespaces/b/".toList = true ∧
    (unTarGzEntry "/space".toList ⟨emptyTarget "/space".toList, []⟩
      ⟨⟨"gather/namespaces/b/".toList, .TypeDir⟩, []⟩).1.namespacePrefixPath =
      ["gather".toList] ∧
    qualifies "gather/version".toList = false ∧
    (unTarGzEntry "/space".toList ⟨emptyTarget "/space".toList, ["gather".toList]⟩
      ⟨⟨"gather/version".toList, .TypeReg⟩, []⟩).1.namespacePrefixPath = ["gather".toList] :=
  ⟨by decide,
   (unTarGz_prefix_fixed_once_nonempty "/space".toList true
      ⟨emptyTarget "/space".toList, ["gather".toList]⟩
      ⟨⟨"gather/version".toList, .TypeReg⟩, []⟩ mixedRoots).1 (by decide),
   by decide,
   ((unTarGz_prefix_fixed_once_nonempty "/space".toList true
      ⟨emptyTarget "/space".toList, []⟩
      ⟨⟨"gather/namespaces/b/".toList, .TypeDir⟩, []⟩ []).2.1 rfl (by decide)).trans
      (by decide),
   by decide,
   (unTarGz_prefix_fixed_once_nonempty "/space".toList true
      ⟨emptyTarget "/space".toList, ["gather".toList]⟩
      ⟨⟨"gather/version".toList, .TypeReg⟩, []⟩ []).2.2.1 (by decide)⟩

/-- The collision rename when `Atoi` rejects the last `_` piece of the base. -/
theorem versionedTarget_of_atoi_none (newTarget : Str)
    (h : strconv.Atoi ((strings.Split
      (strings.TrimSuffix newTarget (filepath.Ext newTarget)) '_').getLast?.getD []) = none) :
    versionedTarget newTarget =
      strings.TrimSuffix newTarget (filepath.Ext newTarget) ++ ['_', '1'] ++
        filepath.Ext newTarget := by
  unfold versionedTarget
  simp only [h]

theorem fmt_d_no_underscore (n : Int) : '_' ∉ fmt.d n := by
  have key : ∀ m : Nat, '_' ∉ Nat.toDigits 10 m := by
    intro m hm
    have := (toDigits_spec m).2.1 _ hm
    revert this
    decide
  unfold fmt.d
  split_ifs
  · intro h
    rcases List.mem_cons.1 h with e | e
    · revert e; decide
    · exact key _ e
  · exact key _

/-- The collision rename of a base that ends with `_` and the canonical decimal
spelling of an `int`: that suffix is replaced by `_` and the next integer. -/
theorem versionedTarget_canonical (stem ext : Str) (n : Int)
    (h1 : minInt ≤ n) (h2 : n ≤ maxInt)
    (hext : filepath.Ext (stem ++ '_' :: fmt.d n ++ ext) = ext) :
    versionedTarget (stem ++ '_' :: fmt.d n ++ ext) =
      stem ++ '_' :: fmt.d (wrapInt (n + 1)) ++ ext := by
  have hlast : (strings.Split (stem ++ '_' :: fmt.d n) '_').getLast?.getD [] = fmt.d n := by
    rw [strings.split_append_sep, strings.split_of_not_mem _ _ (fmt_d_no_underscore n)]
    simp
  have htrim : strings.TrimSuffix (stem ++ '_' :: fmt.d n ++ ext) ext = stem ++ '_' :: fmt.d n := by
    have := strings.trimSuffix_append (stem ++ '_' :: fmt.d n) ext
    simpa using this
  unfold versionedTarget
  simp only [hext, htrim, hlast, atoi_fmt n h1 h2, strings.trimSuffix_append]

/-- C10: the collision rename at names whose last `_` piece is an integer in a
spelling other than the canonical one: `a_007` becomes `a_007_8` (not `a_8`) and
`a_+5` becomes `a_+5_6` (not `a_6`); at the largest `int` the increment wraps
around to the smallest; while `a_7` becomes `a_8` and `a_-1` becomes `a_0`. -/
theorem versionedTarget_spellings :
    versionedTarget "/space/namespaces/ns1/a_007.yaml".toList
      = "/space/namespaces/ns1/a_007_8.yaml".toList ∧
    versionedTarget "/space/namespaces/ns1/a_+5.yaml".toList
      = "/space/namespaces/ns1/a_+5_6.yaml".toList ∧
    versionedTarget "/space/namespaces/ns1/a_9223372036854775807.yaml".toList
      = "/space/namespaces/ns1/a_-9223372036854775808.yaml".toList ∧
    versionedTarget "/space/namespaces/ns1/a_7.yaml".toList
      = "/space/namespaces/ns1/a_8.yaml".toList ∧
    versionedTarget "/space/namespaces/ns1/a_-1.yaml".toList
      = "/space/namespaces/ns1/a_0.yaml".toList := by
  refine ⟨?_, ?_, ?_, ?_, ?_⟩ <;> decide
/-! ## Claims about the enrichment index -/

theorem foldl_goAppend (refs : List OwnerReference) (e : EnrichmentData) :
    refs.foldl (fun e ref => { e with OwnerReferences := goAppend e.OwnerReferences ref.UID }) e
      = { e with
          OwnerReferences :=
            match refs with
            | [] => e.OwnerReferences
            | r :: rs => some (e.OwnerReferences.getD [] ++ (r :: rs).map (fun ref => ref.UID)) } := by
  induction refs generalizing e with
  | nil => rfl
  | cons r rs ih =>
    rw [List.foldl_cons, ih]
    cases rs with
    | nil => cases h : e.OwnerReferences <;> simp [goAppend, h]
    | cons r2 rs => cases h : e.OwnerReferences <;> simp [goAppend, h]

theorem enrichmentOf_eq (pod : Pods) :
    enrichmentOf pod =
      { HostName := pod.Spec.NodeName, HostIP := pod.Status.HostIP, UID := pod.Metadata.UID,
        OwnerReferences := ownerUIDs pod.Metadata.OwnerReferences } := by
  unfold enrichmentOf ownerUIDs
  cases pod.Metadata.OwnerReferences with
  | none => rfl
  | some refs =>
    simp only
    rw [foldl_goAppend]
    cases refs with
    | nil => rfl
    | cons r rs => simp

/-- C4: `processEnrichmentData` stores under `namespace + "/" + name` the entry
with the node name, host IP, UID and owner UIDs of the pod (in order, `nil` when
there is none), whatever was stored there before, and changes no other key nor
the object store. -/
theorem processEnrichmentData_upsert (l : logsHandler) (pod : Pods) :
    (processEnrichmentData l pod).lookupData
        (pod.Metadata.Namespace ++ "/".toList ++ pod.Metadata.Name) =
      some { HostName := pod.Spec.NodeName, HostIP := pod.Status.HostIP,
             UID := pod.Metadata.UID,
             OwnerReferences := ownerUIDs pod.Metadata.OwnerReferences } ∧
    (∀ k, k ≠ pod.Metadata.Namespace ++ "/".toList ++ pod.Metadata.Name →
      (processEnrichmentData l pod).lookupData k = l.lookupData k) ∧
    (processEnrichmentData l pod).objectStore = l.objectStore := by
  have hk : lookupKey pod = pod.Metadata.Namespace ++ "/".toList ++ pod.Metadata.Name := by
    simp [lookupKey]
  refine ⟨?_, ?_, rfl⟩
  · unfold processEnrichmentData
    simp only [hk, if_true]
    rw [enrichmentOf_eq]
  · intro k hne
    unfold processEnrichmentData
    simp only [hk, if_neg hne]

/-- Witness for C4: pod `ns1/a` stored in a new handler, and the key `ns1/b`
left alone. -/
theorem processEnrichmentData_upsert_witness :
    "ns1/b".toList ≠
      (yamlUnmarshal (podFileA.pods.getD ⟨none, none, none⟩) Pods.zero).Metadata.Namespace ++
        "/".toList ++
        (yamlUnmarshal (podFileA.pods.getD ⟨none, none, none⟩) Pods.zero).Metadata.Name ∧
    (processEnrichmentData NewLogsHandler
      (yamlUnmarshal (podFileA.pods.getD ⟨none, none, none⟩) Pods.zero)).lookupData
        "ns1/b".toList = none ∧
    (processEnrichmentData NewLogsHandler
      (yamlUnmarshal (podFileA.pods.getD ⟨none, none, none⟩) Pods.zero)).lookupData
        "ns1/a".toList =
      some { HostName := "node1".toList, HostIP := "10.0.0.1".toList, UID := "uid-a".toList,
             OwnerReferences := some ["uid-rs".toList] } :=
  have h := processEnrichmentData_upsert NewLogsHandler
    (yamlUnmarshal (podFileA.pods.getD ⟨none, none, none⟩) Pods.zero)
  ⟨by decide, h.2.1 "ns1/b".toList (by decide), h.1.trans (by decide)⟩

/-- C5: in one pass over the files of pod `ns1/a` (owned by `uid-rs`) and of pod
`ns1/b` (no `ownerReferences` key), the entry stored for `ns1/b` carries the
owner UID of `ns1/a`, although `ns1/b` decoded on its own has no owner
reference and gets an entry without owner UIDs. -/
theorem processPodYAMLs_stale_owner :
    (yamlUnmarshal
      { metadata := some { ns := some "ns1".toList, name := some "b".toList,
                           ownerReferences := .absent, uid := some "uid-b".toList },
        nodeName := some (some "node2".toList), hostIP := some (some "10.0.0.2".toList) }
      Pods.zero).Metadata.OwnerReferences = none ∧
    (processPodYAMLs (.live NewLogsHandler) .absent [podFileB] .written).handler.lookupData "ns1/b".toList =
      some { HostName := "node2".toList, HostIP := "10.0.0.2".toList, UID := "uid-b".toList,
             OwnerReferences := none } ∧
    (processPodYAMLs (.live NewLogsHandler) .absent [podFileA, podFileB] .written).outcome = .ok ∧
    (processPodYAMLs (.live NewLogsHandler) .absent [podFileA, podFileB] .written).handler.lookupData
        "ns1/b".toList =
      some { HostName := "node2".toList, HostIP := "10.0.0.2".toList, UID := "uid-b".toList,
             OwnerReferences := some ["uid-rs".toList] } ∧
    (processPodYAMLs (.live NewLogsHandler) .absent [podFileA, podFileB] .written).file.entries "ns1/b".toList =
      some { HostName := "node2".toList, HostIP := "10.0.0.2".toList, UID := "uid-b".toList,
             OwnerReferences := some ["uid-rs".toList] } := by
  refine ⟨?_, ?_, ?_, ?_, ?_⟩ <;> decide

/-- C6: with no per-instance file and one combined file of three documents whose
second fails to decode, `processVirtualMachineInstanceYAMLs` returns `nil` having
added the first document only. -/
theorem processVirtualMachineInstanceYAMLs_swallows_decode_error :
    (processVirtualMachineInstanceYAMLs NewLogsHandler [] [brokenCombined]).2 = .ok ∧
    (processVirtualMachineInstanceYAMLs NewLogsHandler [] [brokenCombined]).1.objectStore =
      [.VirtualMachineInstance "vmi-1".toList] := by
  refine ⟨?_, ?_⟩ <;> decide

/-- A per-instance VMI file that cannot be read or decoded keeps the call from
returning `nil`. -/
theorem vmiLoop_not_ok (l : logsHandler) (layouts : List VMIFile)
    (h : ∃ f ∈ layouts, f.readable = false ∨ f.single = none) :
    (vmiLoop l layouts).2 ≠ .ok := by
  induction layouts generalizing l with
  | nil =>
    obtain ⟨f, hf, _⟩ := h
    exact absurd hf (List.not_mem_nil _)
  | cons g layouts ih =>
    unfold vmiLoop
    cases hr : g.readable with
    | false => simp
    | true =>
      simp only [Bool.not_true, Bool.false_eq_true, if_false]
      unfold storeVMIData
      cases hs : g.single with
      | none => simp [log.Fatalln]
      | some vmi =>
        simp only
        apply ih
        obtain ⟨f, hf, hbad⟩ := h
        rcases List.mem_cons.1 hf with rfl | hf
        · rcases hbad with hb | hb
          · rw [hr] at hb; exact absurd hb (by decide)
          · rw [hs] at hb; exact absurd hb (by simp)
        · exact ⟨f, hf, hbad⟩

/-- The outcome of the loop over `layouts` when the map is allocated. -/
theorem podLoop_live (l : logsHandler) (pod : Pods) (layouts : List PodFile) :
    ∃ l2 : logsHandler,
      podLoop (.live l) pod layouts =
        (.live l2, (podLoop (.live NewLogsHandler) pod layouts).2) ∧
      l2.lookupData = applyEntries l.lookupData (podEntries pod layouts) := by
  induction layouts generalizing l pod with
  | nil => exact ⟨l, rfl, rfl⟩
  | cons f layouts ih =>
    unfold podLoop podEntries
    cases hr : f.readable with
    | false => exact ⟨l, rfl, rfl⟩
    | true =>
      simp only [Bool.not_true, Bool.false_eq_true, if_false]
      cases hp : f.pods with
      | none => exact ⟨l, rfl, rfl⟩
      | some doc =>
        simp only
        unfold storePodData
        cases hk : f.k8s with
        | none => exact ⟨_, rfl, rfl⟩
        | some o =>
          simp only
          obtain ⟨l2, h1, h2⟩ := ih
            { processEnrichmentData l (yamlUnmarshal doc pod) with
              objectStore := ObjectStore.Add
                (processEnrichmentData l (yamlUnmarshal doc pod)).objectStore (.Pod o) }
            (yamlUnmarshal doc pod)
          obtain ⟨l3, h3, _⟩ := ih
            { processEnrichmentData NewLogsHandler (yamlUnmarshal doc pod) with
              objectStore := ObjectStore.Add
                (processEnrichmentData NewLogsHandler (yamlUnmarshal doc pod)).objectStore
                (.Pod o) }
            (yamlUnmarshal doc pod)
          refine ⟨l2, ?_, ?_⟩
          · rw [h1, h3]
          · rw [h2]; rfl

/-- The loop over `layouts` when the map is nil: it leaves the handler alone and
returns `nil` only when there is no file. -/
theorem podLoop_nilMap (objectStore : List Record) (pod : Pods) (layouts : List PodFile) :
    (podLoop (.nilMap objectStore) pod layouts).1 = .nilMap objectStore ∧
    ((podLoop (.nilMap objectStore) pod layouts).2 = .ok → layouts = []) := by
  cases layouts with
  | nil => exact ⟨rfl, fun _ => rfl⟩
  | cons f layouts =>
    unfold podLoop
    cases hr : f.readable with
    | false => exact ⟨rfl, fun h => (by cases h)⟩
    | true =>
      simp only [Bool.not_true, Bool.false_eq_true, if_false]
      cases hp : f.pods with
      | none => exact ⟨rfl, fun h => (by cases h)⟩
      | some doc => exact ⟨rfl, fun h => (by cases h)⟩

theorem applyEntries_apply (m : LookupData) (es : List (Str × EnrichmentData)) (k : Str) :
    applyEntries m es k =
      match applyEntries (fun _ => none) es k with
      | some v => some v
      | none => m k := by
  induction es generalizing m with
  | nil => rfl
  | cons kv es ih =>
    have e1 : applyEntries m (kv :: es) =
        applyEntries (fun k => if k = kv.1 then some kv.2 else m k) es := rfl
    have e2 : applyEntries (fun _ => none) (kv :: es) =
        applyEntries (fun k => if k = kv.1 then some kv.2 else none) es := rfl
    rw [e1, e2, ih, ih (fun k => if k = kv.1 then some kv.2 else none)]
    cases applyEntries (fun _ => none) es k with
    | some v => rfl
    | none =>
      simp only
      split_ifs <;> rfl

theorem applyEntries_isSome (es : List (Str × EnrichmentData)) (k : Str) :
    (applyEntries (fun _ => none) es k).isSome = true ↔ k ∈ es.map Prod.fst := by
  induction es with
  | nil =>
    constructor
    · intro h; exact Bool.noConfusion h
    · intro h; exact absurd h (List.not_mem_nil _)
  | cons kv es ih =>
    have e2 : applyEntries (fun _ => none) (kv :: es) =
        applyEntries (fun k => if k = kv.1 then some kv.2 else none) es := rfl
    rw [e2, applyEntries_apply]
    cases h : applyEntries (fun _ => none) es k with
    | some v =>
      have := ih.1 (by rw [h]; rfl)
      exact ⟨fun _ => List.mem_cons_of_mem _ this, fun _ => rfl⟩
    | none =>
      have hn : k ∉ es.map Prod.fst := fun hm => by
        have := ih.2 hm
        rw [h] at this
        exact Bool.noConfusion this
      simp only [List.map_cons, List.mem_cons]
      by_cases hk : k = kv.1
      · constructor
        · intro _; exact Or.inl hk
        · intro _
          show (if k = kv.1 then some kv.2 else none).isSome = true
          rw [if_pos hk]; rfl
      · constructor
        · intro h0
          have h1 : (if k = kv.1 then some kv.2 else none).isSome = true := h0
          rw [if_neg hk] at h1
          exact Bool.noConfusion h1
        · rintro (h0 | h0)
          · exact absurd h0 hk
          · exact absurd h0 hn

theorem marshalEntry_idem (e : EnrichmentData) : marshalEntry (marshalEntry e) = marshalEntry e := by
  unfold marshalEntry
  rcases e with ⟨a, b, c, refs⟩
  cases refs with
  | none => rfl
  | some l => cases l <;> rfl

/-- The map is allocated after loading unless the file holds `null`, or cannot
be loaded while the map is nil. -/
theorem load_cases (h : Handler) (file : IndexFile) :
    (∃ l1, (loadExistingEnrichmentData h file).1 = .live l1) ∨
    (∃ s, (loadExistingEnrichmentData h file).1 = .nilMap s ∧
      (file = .null ∨ ((file = .absent ∨ file = .unreadable) ∧ h = .nilMap s))) := by
  cases file with
  | absent =>
    cases h with
    | live l => exact Or.inl ⟨l, rfl⟩
    | nilMap s => exact Or.inr ⟨s, rfl, Or.inr ⟨Or.inl rfl, rfl⟩⟩
  | unreadable =>
    cases h with
    | live l => exact Or.inl ⟨l, rfl⟩
    | nilMap s => exact Or.inr ⟨s, rfl, Or.inr ⟨Or.inr rfl, rfl⟩⟩
  | null => exact Or.inr ⟨_, rfl, Or.inl rfl⟩
  | content entries => exact Or.inl ⟨_, rfl⟩

/-- A pass whose map is allocated after loading. -/
theorem pass_live (h : Handler) (file : IndexFile) (layouts : List PodFile) (w : WriteResult)
    (l1 : logsHandler) (hl : (loadExistingEnrichmentData h file).1 = .live l1) :
    ∃ l2 : logsHandler,
      l2.lookupData = applyEntries l1.lookupData (podEntries Pods.zero layouts) ∧
      (processPodYAMLs h file layouts w).handler = .live l2 ∧
      (processPodYAMLs h file layouts w).outcome =
        (podLoop (.live NewLogsHandler) Pods.zero layouts).2 ∧
      ((podLoop (.live NewLogsHandler) Pods.zero layouts).2 = .ok →
        (processPodYAMLs h file layouts w).written = some (.content (marshal l2.lookupData)) ∧
        (processPodYAMLs h file layouts w).file =
          writeFile file (.content (marshal l2.lookupData)) w) ∧
      ((podLoop (.live NewLogsHandler) Pods.zero layouts).2 ≠ .ok →
        (processPodYAMLs h file layouts w).written = none ∧
        (processPodYAMLs h file layouts w).file = file) := by
  obtain ⟨l2, h1, h2⟩ := podLoop_live l1 Pods.zero layouts
  refine ⟨l2, h2, ?_⟩
  unfold processPodYAMLs
  simp only [hl, h1]
  cases hout : (podLoop (.live NewLogsHandler) Pods.zero layouts).2 with
  | ok => exact ⟨rfl, rfl, fun _ => ⟨rfl, rfl⟩, fun hne => absurd rfl hne⟩
  | error => exact ⟨rfl, rfl, fun hc => (by cases hc), fun _ => ⟨rfl, rfl⟩⟩
  | fatal => exact ⟨rfl, rfl, fun hc => (by cases hc), fun _ => ⟨rfl, rfl⟩⟩
  | panic => exact ⟨rfl, rfl, fun hc => (by cases hc), fun _ => ⟨rfl, rfl⟩⟩

/-- A pass whose map is nil after loading. -/
theorem pass_nilMap (h : Handler) (file : IndexFile) (layouts : List PodFile) (w : WriteResult)
    (s : List Record) (hn : (loadExistingEnrichmentData h file).1 = .nilMap s) :
    (processPodYAMLs h file layouts w).handler = .nilMap s ∧
    ((processPodYAMLs h file layouts w).outcome = .ok →
      layouts = [] ∧ (processPodYAMLs h file layouts w).written = some .null ∧
      (processPodYAMLs h file layouts w).file = writeFile file .null w) ∧
    ((processPodYAMLs h file layouts w).outcome ≠ .ok →
      (processPodYAMLs h file layouts w).written = none) := by
  obtain ⟨h1, h2⟩ := podLoop_nilMap s Pods.zero layouts
  unfold processPodYAMLs
  simp only [hn]
  rcases hr : podLoop (.nilMap s) Pods.zero layouts with ⟨h3, out⟩
  rw [hr] at h1 h2
  simp only at h1 h2
  subst h1
  cases out with
  | ok => exact ⟨rfl, fun _ => ⟨h2 rfl, rfl, rfl⟩, fun hne => absurd rfl hne⟩
  | error => exact ⟨rfl, fun hc => (by cases hc), fun _ => rfl⟩
  | fatal => exact ⟨rfl, fun hc => (by cases hc), fun _ => rfl⟩
  | panic => exact ⟨rfl, fun hc => (by cases hc), fun _ => rfl⟩

theorem writeFile_same (js1 : IndexFile) (w : WriteResult) (hw : w ≠ .truncated) :
    writeFile js1 js1 w = js1 := by
  cases js1 <;> cases w <;> first | rfl | exact absurd rfl hw

/-- A second pass over the same files, by a handler that holds nothing but what
the first pass left, when the file holds what the first pass serialised. -/
theorem second_pass (h h2 : Handler) (file : IndexFile) (layouts : List PodFile)
    (w1 w2 : WriteResult)
    (hw : (processPodYAMLs h file layouts w1).written =
      some (processPodYAMLs h file layouts w1).file)
    (hh : ∀ k, h2.lookupData k = none ∨
      h2.lookupData k = (processPodYAMLs h file layouts w1).handler.lookupData k) :
    (processPodYAMLs h2 (processPodYAMLs h file layouts w1).file layouts w2).outcome = .ok ∧
    (processPodYAMLs h2 (processPodYAMLs h file layouts w1).file layouts w2).written =
      (processPodYAMLs h file layouts w1).written := by
  rcases load_cases h file with ⟨l1, hl⟩ | ⟨s, hn, _⟩
  · obtain ⟨l2, hL2, hhand, hout, hokc, hnok⟩ := pass_live h file layouts w1 l1 hl
    by_cases hok : (podLoop (.live NewLogsHandler) Pods.zero layouts).2 = .ok
    · obtain ⟨hwr, _⟩ := hokc hok
      rw [hwr] at hw
      have hfile : (processPodYAMLs h file layouts w1).file = .content (marshal l2.lookupData) :=
        (Option.some.inj hw).symm
      rw [hhand] at hh
      rw [hfile, hwr]
      obtain ⟨l3, hL3, _, hout3, hokc3, _⟩ :=
        pass_live h2 (.content (marshal l2.lookupData)) layouts w2 _ rfl
      refine ⟨by rw [hout3, hok], ?_⟩
      rw [(hokc3 hok).1]
      congr 2
      funext k
      show Option.map marshalEntry (l3.lookupData k) = Option.map marshalEntry (l2.lookupData k)
      rw [hL3, applyEntries_apply]
      have hXk := congrFun hL2 k
      rw [applyEntries_apply] at hXk
      cases hA : applyEntries (fun _ => none) (podEntries Pods.zero layouts) k with
      | some v =>
        rw [hA] at hXk
        rw [hXk]
      | none =>
        simp only
        show Option.map marshalEntry
            (match marshal l2.lookupData k with
             | some e => some e
             | none => h2.lookupData k) = Option.map marshalEntry (l2.lookupData k)
        unfold marshal
        cases hx : l2.lookupData k with
        | none =>
          rcases hh k with e | e
          · rw [e]; rfl
          · rw [e]
            show Option.map marshalEntry (l2.lookupData k) = Option.map marshalEntry none
            rw [hx]
        | some v =>
          show Option.map marshalEntry (some (marshalEntry v)) = Option.map marshalEntry (some v)
          simp only [Option.map_some', marshalEntry_idem]
    · rw [(hnok hok).1] at hw
      cases hw
  · obtain ⟨_, hokc, hnok⟩ := pass_nilMap h file layouts w1 s hn
    by_cases hok : (processPodYAMLs h file layouts w1).outcome = .ok
    · obtain ⟨hnil, hwr, _⟩ := hokc hok
      rw [hwr] at hw
      have hfile : (processPodYAMLs h file layouts w1).file = .null := (Option.some.inj hw).symm
      rw [hfile, hwr]
      subst hnil
      exact ⟨rfl, rfl⟩
    · rw [hnok hok] at hw
      cases hw

theorem podLoop_ok (pod : Pods) (layouts : List PodFile)
    (h : ∀ f ∈ layouts, f.readable = true ∧ f.pods.isSome = true ∧ f.k8s.isSome = true) :
    (podLoop (.live NewLogsHandler) pod layouts).2 = .ok := by
  suffices hs : ∀ l : logsHandler, (podLoop (.live l) pod layouts).2 = .ok from hs _
  induction layouts generalizing pod with
  | nil => intro l; rfl
  | cons f layouts ih =>
    intro l
    obtain ⟨h1, h2, h3⟩ := h f (List.mem_cons_self _ _)
    obtain ⟨doc, hd⟩ := Option.isSome_iff_exists.1 h2
    obtain ⟨o, ho⟩ := Option.isSome_iff_exists.1 h3
    unfold podLoop
    simp only [h1, hd, storePodData, ho, Bool.not_true, Bool.false_eq_true, if_false]
    exact ih _ (fun g hg => h g (List.mem_cons_of_mem _ hg)) _

/-- C7: when the first pod-ingestion pass has written the index (the enrichment
data file holds the document the pass serialised), a second pass over the same
pod files, by the same handler or by a new one, returns `nil` and serialises the
same document, so that the file is as the first pass left it unless the second
write breaks off after truncating it; and the first pass does write the index
when every pod file can be read and decoded, the map is allocated after loading,
the path is not a directory and `WriteFile` succeeds. -/
theorem processPodYAMLs_idempotent (h : Handler) (file : IndexFile)
    (layouts : List PodFile) (w1 w2 : WriteResult) :
    ((processPodYAMLs h file layouts w1).written =
        some (processPodYAMLs h file layouts w1).file →
      (processPodYAMLs (processPodYAMLs h file layouts w1).handler
          (processPodYAMLs h file layouts w1).file layouts w2).outcome = .ok ∧
      (processPodYAMLs (processPodYAMLs h file layouts w1).handler
          (processPodYAMLs h file layouts w1).file layouts w2).written =
        (processPodYAMLs h file layouts w1).written ∧
      (processPodYAMLs (.live NewLogsHandler)
          (processPodYAMLs h file layouts w1).file layouts w2).outcome = .ok ∧
      (processPodYAMLs (.live NewLogsHandler)
          (processPodYAMLs h file layouts w1).file layouts w2).written =
        (processPodYAMLs h file layouts w1).written ∧
      (w2 ≠ .truncated →
        (processPodYAMLs (processPodYAMLs h file layouts w1).handler
            (processPodYAMLs h file layouts w1).file layouts w2).file =
          (processPodYAMLs h file layouts w1).file ∧
        (processPodYAMLs (.live NewLogsHandler)
            (processPodYAMLs h file layouts w1).file layouts w2).file =
          (processPodYAMLs h file layouts w1).file)) ∧
    ((∀ f ∈ layouts, f.readable = true ∧ f.pods.isSome = true ∧ f.k8s.isSome = true) →
      (∃ l1, (loadExistingEnrichmentData h file).1 = .live l1) →
      file ≠ .unreadable → w1 = .written →
      (processPodYAMLs h file layouts w1).outcome = .ok ∧
      (processPodYAMLs h file layouts w1).written =
        some (processPodYAMLs h file layouts w1).file) := by
  constructor
  · intro hw
    obtain ⟨ha1, ha2⟩ := second_pass h (processPodYAMLs h file layouts w1).handler file layouts
      w1 w2 hw (fun k => Or.inr rfl)
    obtain ⟨hb1, hb2⟩ := second_pass h (.live NewLogsHandler) file layouts
      w1 w2 hw (fun k => Or.inl rfl)
    refine ⟨ha1, ha2, hb1, hb2, ?_⟩
    intro hw2
    have key : ∀ h2 : Handler,
        (processPodYAMLs h2 (processPodYAMLs h file layouts w1).file layouts w2).outcome = .ok →
        (processPodYAMLs h2 (processPodYAMLs h file layouts w1).file layouts w2).written =
          (processPodYAMLs h file layouts w1).written →
        (processPodYAMLs h2 (processPodYAMLs h file layouts w1).file layouts w2).file =
          (processPodYAMLs h file layouts w1).file := by
      intro h2 hok2 hwr2
      rw [hw] at hwr2
      generalize (processPodYAMLs h file layouts w1).file = f1 at hwr2 hok2 ⊢
      rcases load_cases h2 f1 with ⟨l1, hl⟩ | ⟨s, hn, _⟩
      · obtain ⟨l2, _, _, hout, hokc, _⟩ := pass_live h2 f1 layouts w2 l1 hl
        rw [hout] at hok2
        obtain ⟨e1, e2⟩ := hokc hok2
        rw [e1] at hwr2
        rw [e2, Option.some.inj hwr2]
        exact writeFile_same f1 w2 hw2
      · obtain ⟨_, hokc, _⟩ := pass_nilMap h2 f1 layouts w2 s hn
        obtain ⟨_, e1, e2⟩ := hokc hok2
        rw [e1] at hwr2
        rw [e2, Option.some.inj hwr2]
        exact writeFile_same f1 w2 hw2
    exact ⟨key _ ha1 ha2, key _ hb1 hb2⟩
  · rintro hfiles ⟨l1, hl⟩ hdir rfl
    obtain ⟨l2, _, _, hout, hokc, _⟩ := pass_live h file layouts .written l1 hl
    have hok := podLoop_ok Pods.zero layouts hfiles
    obtain ⟨e1, e2⟩ := hokc hok
    refine ⟨by rw [hout, hok], ?_⟩
    rw [e1, e2]
    cases file with
    | unreadable => exact absurd rfl hdir
    | absent => rfl
    | null => rfl
    | content entries => rfl

/-- Witness for C7: the pods `ns1/a` and `ns1/b`, from a new handler and no
file, both writes succeeding. -/
theorem processPodYAMLs_idempotent_witness :
    (∀ f ∈ [podFileA, podFileB],
      f.readable = true ∧ f.pods.isSome = true ∧ f.k8s.isSome = true) ∧
    (processPodYAMLs (.live NewLogsHandler) .absent [podFileA, podFileB] .written).outcome
      = .ok ∧
    (processPodYAMLs (.live NewLogsHandler) .absent [podFileA, podFileB] .written).written =
      some (processPodYAMLs (.live NewLogsHandler) .absent [podFileA, podFileB] .written).file ∧
    (processPodYAMLs
        (processPodYAMLs (.live NewLogsHandler) .absent [podFileA, podFileB] .written).handler
        (processPodYAMLs (.live NewLogsHandler) .absent [podFileA, podFileB] .written).file
        [podFileA, podFileB] .written).written =
      (processPodYAMLs (.live NewLogsHandler) .absent [podFileA, podFileB] .written).written ∧
    (processPodYAMLs
        (processPodYAMLs (.live NewLogsHandler) .absent [podFileA, podFileB] .written).handler
        (processPodYAMLs (.live NewLogsHandler) .absent [podFileA, podFileB] .written).file
        [podFileA, podFileB] .written).file =
      (processPodYAMLs (.live NewLogsHandler) .absent [podFileA, podFileB] .written).file :=
  have h := processPodYAMLs_idempotent (.live NewLogsHandler) .absent [podFileA, podFileB]
    .written .written
  have hfirst := h.2 (by decide) ⟨NewLogsHandler, rfl⟩ (fun hc => IndexFile.noConfusion hc) rfl
  have hsecond := h.1 hfirst.2
  ⟨by decide, hfirst.1, hfirst.2, hsecond.2.1, (hsecond.2.2.2.2 (by decide)).1⟩

/-- C8 (as stated, refuted): a new handler ingests pod `ns1/a`; the enrichment
data file is then absent again and the same handler ingests pod `ns1/b` only.
The index this second pass writes still has the key `ns1/a`, which is not the key
of a pod decoded in that pass. -/
theorem processPodYAMLs_keeps_earlier_keys :
    (processPodYAMLs
      (processPodYAMLs (.live NewLogsHandler) .absent [podFileA] .written).handler .absent
      [podFileB] .written).outcome = .ok ∧
    ((processPodYAMLs
      (processPodYAMLs (.live NewLogsHandler) .absent [podFileA] .written).handler .absent
      [podFileB] .written).file.entries "ns1/a".toList).isSome = true ∧
    "ns1/a".toList ∉ (podEntries Pods.zero [podFileB]).map Prod.fst := by
  refine ⟨?_, ?_, ?_⟩ <;> decide

/-- C8 (amended): when the enrichment data file is absent or unreadable and the
pass returns `nil`, the pass proceeds from the `lookupData` the handler already
holds: the index it serialises and hands to `WriteFile` has exactly the keys
already in `lookupData` together with the keys of the pods decoded in the pass,
hence exactly the keys of those pods when `lookupData` is empty, as it is in a
new handler. The file holds that index when it was absent and `WriteFile`
succeeds; when the path is unreadable (a directory) nothing is written. -/
theorem processPodYAMLs_without_file (h : Handler) (file : IndexFile)
    (layouts : List PodFile) (w : WriteResult)
    (hfile : file = .absent ∨ file = .unreadable)
    (hok : (processPodYAMLs h file layouts w).outcome = .ok) :
    (processPodYAMLs h file layouts w).written =
      some (marshalLookupData (processPodYAMLs h file layouts w).handler) ∧
    (∀ k, ((processPodYAMLs h file layouts w).index k).isSome = true ↔
      ((h.lookupData k).isSome = true ∨ k ∈ (podEntries Pods.zero layouts).map Prod.fst)) ∧
    ((∀ k, h.lookupData k = none) →
      ∀ k, ((processPodYAMLs h file layouts w).index k).isSome = true ↔
        k ∈ (podEntries Pods.zero layouts).map Prod.fst) ∧
    (file = .absent → w = .written →
      some (processPodYAMLs h file layouts w).file = (processPodYAMLs h file layouts w).written) ∧
    (file = .unreadable → (processPodYAMLs h file layouts w).file = .unreadable) := by
  have hload : (loadExistingEnrichmentData h file).1 = h := by
    rcases hfile with rfl | rfl <;> rfl
  have hmain : (processPodYAMLs h file layouts w).written =
        some (marshalLookupData (processPodYAMLs h file layouts w).handler) ∧
      (processPodYAMLs h file layouts w).file =
        writeFile file (marshalLookupData (processPodYAMLs h file layouts w).handler) w ∧
      ∀ k, ((processPodYAMLs h file layouts w).index k).isSome = true ↔
        ((h.lookupData k).isSome = true ∨
          k ∈ (podEntries Pods.zero layouts).map Prod.fst) := by
    cases h with
    | live l =>
      obtain ⟨l2, hL2, hhand, hout, hokc, _⟩ := pass_live (.live l) file layouts w l hload
      rw [hout] at hok
      obtain ⟨e1, e2⟩ := hokc hok
      refine ⟨by rw [e1, hhand]; rfl, by rw [e2, hhand]; rfl, ?_⟩
      intro k
      unfold PassResult.index
      rw [e1]
      show (Option.map marshalEntry (l2.lookupData k)).isSome = true ↔ _
      rw [Option.isSome_map', hL2, applyEntries_apply, ← applyEntries_isSome]
      cases applyEntries (fun _ => none) (podEntries Pods.zero layouts) k with
      | some v => exact ⟨fun _ => Or.inr rfl, fun _ => rfl⟩
      | none =>
        constructor
        · intro hk; exact Or.inl hk
        · rintro (hk | hk)
          · exact hk
          · exact Bool.noConfusion hk
    | nilMap s =>
      obtain ⟨hhand, hokc, _⟩ := pass_nilMap (.nilMap s) file layouts w s hload
      obtain ⟨hnil, e1, e2⟩ := hokc hok
      refine ⟨by rw [e1, hhand]; rfl, by rw [e2, hhand]; rfl, ?_⟩
      intro k
      unfold PassResult.index
      rw [e1, hnil]
      constructor
      · intro hk; exact Bool.noConfusion hk
      · rintro (hk | hk)
        · exact Bool.noConfusion hk
        · exact absurd hk (List.not_mem_nil _)
  obtain ⟨hwr, hf, hkeys⟩ := hmain
  refine ⟨hwr, hkeys, ?_, ?_, ?_⟩
  · intro hempty k
    rw [hkeys k, hempty k]
    constructor
    · rintro (hk | hk)
      · exact Bool.noConfusion hk
      · exact hk
    · exact Or.inr
  · rintro rfl rfl
    rw [hwr, hf]
    rfl
  · rintro rfl
    rw [hf]
    rfl

/-- Witness for C8 (amended): a new handler and the pods `ns1/a` and `ns1/b`,
once with no file and once with a directory in its place. -/
theorem processPodYAMLs_without_file_witness :
    (processPodYAMLs (.live NewLogsHandler) .absent [podFileA, podFileB] .written).outcome
      = .ok ∧
    some (processPodYAMLs (.live NewLogsHandler) .absent [podFileA, podFileB] .written).file =
      (processPodYAMLs (.live NewLogsHandler) .absent [podFileA, podFileB] .written).written ∧
    (processPodYAMLs (.live NewLogsHandler) .unreadable [podFileA, podFileB] .written).outcome
      = .ok ∧
    (processPodYAMLs (.live NewLogsHandler) .unreadable [podFileA, podFileB] .written).written =
      some (marshalLookupData
        (processPodYAMLs (.live NewLogsHandler) .unreadable [podFileA, podFileB]
          .written).handler) ∧
    (processPodYAMLs (.live NewLogsHandler) .unreadable [podFileA, podFileB] .written).file =
      .unreadable :=
  have ha := processPodYAMLs_without_file (.live NewLogsHandler) .absent [podFileA, podFileB]
    .written (Or.inl rfl) (by decide)
  have hu := processPodYAMLs_without_file (.live NewLogsHandler) .unreadable
    [podFileA, podFileB] .written (Or.inr rfl) (by decide)
  ⟨by decide, ha.2.2.2.1 rfl rfl, by decide, hu.1, hu.2.2.2.2 rfl⟩

end LogsViewer
